import Mathlib

/-!
# Verification of the PianoRoll voice-leading optimizer

Shallow embedding of `src/utils/theory-functions.ts`.  Notes and chords are
mutated in place by the original; here every mutation is an index-based
functional update on the chord's note list, so that the aliasing between the
`melodyNotes` / `harmonyNotes` inputs, the chord structure, and the various
filtered views (`fixedNotes`, `unfixedNotes`, `assignedNotes`) is reproduced
exactly.  JavaScript's stable `Array.prototype.sort` is modelled by
`List.insertionSort` (stable), `Math.floor(x / 12)` by Lean's `x / 12` on
`Int` (Euclidean division, identical to `Math.floor` for positive divisor),
and the `undefined` voice by `Option Nat`.
-/

namespace PianoRoll

/-- `Note` from theory-functions.ts: MIDI pitch, position and duration in
32nd notes, and the optional voice assignment (`undefined` = `none`). -/
structure Note where
  pitch : Int
  position : Int
  duration : Int
  voice : Option Nat := none
deriving Repr, DecidableEq, Inhabited

/-- `Chord` from theory-functions.ts.  `duration = none` models the
`Infinity` produced by `sortedPositions[i + 1] || Infinity` for the last
chord (or a falsy `0` next position). -/
structure Chord where
  position : Int
  notes : List Note
  duration : Option Int
deriving Repr, DecidableEq, Inhabited

/-- `note.voice || 0` as used by the sort comparators. -/
def voiceOr0 (n : Note) : Nat := n.voice.getD 0

/-- In-place update of the i-th element of a note list (out of range: no-op),
modelling a write through an aliased object reference. -/
def modifyAt (l : List Note) (i : Nat) (f : Note → Note) : List Note :=
  match l, i with
  | [], _ => []
  | x :: xs, 0 => f x :: xs
  | x :: xs, i + 1 => x :: modifyAt xs i f

/-- Write the given voices through a list of note indices, in order
(models mutating each object of a filtered view of `chord.notes`). -/
def setVoicesAt (notes : List Note) (idxs : List Nat) (vs : List (Option Nat)) :
    List Note :=
  (idxs.zip vs).foldl (fun ns iv => modifyAt ns iv.1 (fun n => { n with voice := iv.2 })) notes

/-- `assignedNotes[i].voice = voiceAssignments[i]` for every index of the
assignment array: the writes land on the first notes of the chord, because
`assignedNotes = [...currentChord.notes]` copies the array but aliases the
note objects.  The index loop `for (i = 0; i < va.length; i++)` is the
element-wise zip of the two lists. -/
def writeFirstVoices : List Note → List Nat → List Note
  | ns, [] => ns
  | [], _ => []
  | n :: ns, v :: vs => { n with voice := some v } :: writeFirstVoices ns vs

/-- Stable sort of a note list by `(voice || 0)` ascending, as done by
`sort((a, b) => (a.voice || 0) - (b.voice || 0))`. -/
def sortByVoice (l : List Note) : List Note :=
  l.insertionSort (fun a b => voiceOr0 a ≤ voiceOr0 b)

/-- Indices of `chord.notes` whose voice is still `undefined`
(the `unfixedNotes` filtered view). -/
def unfixedIdx (c : Chord) : List Nat :=
  (List.range c.notes.length).filter (fun i => (c.notes.getD i default).voice.isNone)

/-- `for (i …) for (j = i + 1 …) if (g l[i] l[j]) count++` — the nested
pair loops of the source, as a recursion over the list. -/
def pairCountP (g : Note → Note → Bool) : List Note → Nat
  | [] => 0
  | x :: xs => xs.countP (g x) + pairCountP g xs

/-- `for (i = 0; i < len - 1; i++) if (g l[i] l[i+1]) count++` — the
adjacent-pair loop of the source, as a recursion over the list. -/
def adjCountP (g : Note → Note → Bool) : List Note → Nat
  | a :: b :: rest => (if g a b then 1 else 0) + adjCountP g (b :: rest)
  | _ => 0

/-- `identifyChords`: tag any note whose (pitch, position) matches a melody
note with voice 0. -/
def tagMelody (melodyNotes : List Note) (n : Note) : Note :=
  if melodyNotes.any (fun m => m.pitch == n.pitch && m.position == n.position) then
    { n with voice := some 0 }
  else n

/-- One chord of `identifyChords`: all notes at `position` (melody first,
in input order), melody-tagged; duration is the gap to the next position,
`none` for the JS `Infinity` sentinel. -/
def chordAt (melodyNotes allNotes : List Note) (position : Int) (next? : Option Int) :
    Chord :=
  { position := position
    notes := (allNotes.filter (fun n => n.position == position)).map (tagMelody melodyNotes)
    duration := match next? with
      | some p => if p == 0 then none else some (p - position)
      | none => none }

/-- The loop over `sortedPositions` in `identifyChords`. -/
def buildChords (melodyNotes allNotes : List Note) : List Int → List Chord
  | [] => []
  | p :: rest => chordAt melodyNotes allNotes p rest.head? :: buildChords melodyNotes allNotes rest

/-- `identifyChords` from theory-functions.ts. -/
def identifyChords (melodyNotes harmonyNotes : List Note) : List Chord :=
  let allNotes := melodyNotes ++ harmonyNotes
  buildChords melodyNotes allNotes
    (((allNotes.map (·.position)).dedup).insertionSort (· ≤ ·))

/-- `determineVoiceCount`: maximum chord cardinality. -/
def determineVoiceCount (chords : List Chord) : Nat :=
  chords.foldl (fun m c => max m c.notes.length) 0

/-- `assignVoicesToFirstChord`: remaining (unvoiced) notes are sorted by
pitch descending (stable) and given voices `startVoice, startVoice+1, …`,
except the last of them, which is forced to `numVoices - 1`. -/
def assignVoicesToFirstChord (chord : Chord) (numVoices : Nat) : Chord :=
  let melodyNote? := chord.notes.find? (fun n => n.voice == some 0)
  let remainingIdx :=
    ((List.range chord.notes.length).filter
        (fun i => (chord.notes.getD i default).voice.isNone)).insertionSort
      (fun i j => (chord.notes.getD j default).pitch ≤ (chord.notes.getD i default).pitch)
  let startVoice : Nat := if melodyNote?.isSome then 1 else 0
  let m := remainingIdx.length
  { chord with notes :=
      (((List.range m).zip remainingIdx).foldl
        (fun ns ti =>
          modifyAt ns ti.2 (fun n =>
            { n with voice := some (if ti.1 = m - 1 then numVoices - 1 else startVoice + ti.1) }))
        chord.notes) }

/-- `isParallelFifthOrOctave` on the (non-negative) absolute intervals. -/
def isParallelFifthOrOctave (interval1 interval2 : Nat) : Bool :=
  (interval1 % 12 == 7 && interval2 % 12 == 7) ||
  (interval1 % 12 == 0 && interval2 % 12 == 0 && interval1 != 0)

/-- The four cost components of `calculateVoiceLeadingCost`, computed on the
already-assigned note list (after the function's own writes). -/
def costFromState (prevChord : Chord) (assignedNotes : List Note) : Nat :=
  let prevSorted := sortByVoice prevChord.notes
  let currentSorted := sortByVoice assignedNotes
  let crossCost := 1000 *
    pairCountP (fun a b => voiceOr0 a < voiceOr0 b && decide (a.pitch < b.pitch)) currentSorted
  let spacingCost := 100 *
    adjCountP (fun a b => decide (a.pitch - b.pitch > 12)) currentSorted
  let parallelCost := 500 *
    pairCountP (fun pi pj =>
      match currentSorted.find? (fun n => n.voice == pi.voice),
            currentSorted.find? (fun n => n.voice == pj.voice) with
      | some ci, some cj =>
        isParallelFifthOrOctave ((pi.pitch - pj.pitch).natAbs) ((ci.pitch - cj.pitch).natAbs)
      | _, _ => false) prevSorted
  let movementCost :=
    (prevSorted.map (fun p =>
      match currentSorted.find? (fun n => n.voice == p.voice) with
      | some c => (p.pitch - c.pitch).natAbs * 2
      | none => 0)).sum
  crossCost + spacingCost + parallelCost + movementCost

/-- `calculateVoiceLeadingCost`: first writes `voiceAssignments[i]` into the
i-th note of the chord (the aliased `assignedNotes` array), then sums the
four penalties.  Returns the cost together with the mutated chord. -/
def calculateVoiceLeadingCost (prevChord currentChord : Chord) (voiceAssignments : List Nat) :
    Nat × Chord :=
  let assignedNotes := writeFirstVoices currentChord.notes voiceAssignments
  (costFromState prevChord assignedNotes, { currentChord with notes := assignedNotes })

/-- The recursive `backtrack` helper of `generatePermutations`.  `fuel` is
`k - current.length` (the source stops when `current.length === k`);
`start` is received and passed on as `i + 1` but never read, because the
inner loop always restarts at index 0. -/
def backtrack (array : List Nat) : Nat → Nat → List Nat → List (List Nat)
  | 0, _start, current => [current]
  | fuel + 1, _start, current =>
      (array.enum.filter (fun ix => !current.contains ix.2)).flatMap
        (fun ix => backtrack array fuel (ix.1 + 1) (current ++ [ix.2]))

/-- `generatePermutations array k`: all ordered selections of `k` distinct
values from `array`, in source enumeration order. -/
def generatePermutations (array : List Nat) (k : Nat) : List (List Nat) :=
  backtrack array k 0 []

/-- `generateVoiceAssignments`: permutations of the available voices
(those of `0 … numVoices-1` not used by already-voiced notes). -/
def availableVoices (chord : Chord) (numVoices : Nat) : List Nat :=
  let fixedNotes := chord.notes.filter (fun n => n.voice.isSome)
  let usedVoices := fixedNotes.map (fun n => n.voice)
  (List.range numVoices).filter (fun v => !usedVoices.contains (some v))

/-- `generateVoiceAssignments` from theory-functions.ts. -/
def generateVoiceAssignments (chord : Chord) (numVoices : Nat) : List (List Nat) :=
  let unfixedNotes := chord.notes.filter (fun n => n.voice.isNone)
  generatePermutations (availableVoices chord numVoices) unfixedNotes.length

/-- The loop body of `while (bassNote.pitch > lowestPitch) pitch -= 12`,
with an explicit iteration bound (each pass shrinks `p - lowest` by 12, so
any fuel of at least `p - lowest` iterations reaches the fixed point). -/
def octShiftDownFuel : Nat → Int → Int → Int
  | 0, p, _ => p
  | fuel + 1, p, lowest => if p > lowest then octShiftDownFuel fuel (p - 12) lowest else p

/-- `while (bassNote.pitch > lowestPitch) bassNote.pitch -= 12`. -/
def octShiftDown (p lowest : Int) : Int :=
  octShiftDownFuel (p - lowest).toNat p lowest

/-- Body of the upward walk of `adjustOctaves` for one note against the
(already final) note one voice below it. -/
def stepAdjust (curPitch lowerPitch : Int) : Int :=
  let p1 :=
    if curPitch ≤ lowerPitch then
      curPitch + 12 * ((lowerPitch - curPitch) / 12 + 1)
    else curPitch
  if p1 - lowerPitch > 12 then p1 - 12 * ((p1 - lowerPitch) / 12) else p1

/-- The `for (i = len - 2; i >= 0; i--)` walk of `adjustOctaves`: each note
is adjusted against the final value of the note after it. -/
def walkUp : List Note → List Note
  | [] => []
  | [n] => [n]
  | n :: m :: rest =>
      match walkUp (m :: rest) with
      | [] => [n]
      | lower :: rest2 => { n with pitch := stepAdjust n.pitch lower.pitch } :: lower :: rest2

/-- Minimum pitch over a note list (`Math.min(...)`); callers only use it on
non-empty lists. -/
def minPitchOf : List Note → Int
  | [] => 0
  | n :: rest => rest.foldl (fun m x => min m x.pitch) n.pitch

/-- Maximum pitch over a note list (`Math.max(...)`); callers only use it on
non-empty lists. -/
def maxPitchOf : List Note → Int
  | [] => 0
  | n :: rest => rest.foldl (fun m x => max m x.pitch) n.pitch

/-- `adjustOctaves`: sort the chord by voice in place, find the (first) note
carrying the maximal voice, drop it by octaves to the chord's minimum pitch,
then walk the remaining notes from the bottom up.  If no note's voice equals
the computed bass voice (`find` misses, e.g. all voices `undefined`), the
function returns after the sort. -/
def adjustOctaves (chord : Chord) : Chord :=
  let sorted := sortByVoice chord.notes
  let bassVoice := (sorted.map voiceOr0).foldl max 0
  let bi := sorted.findIdx (fun n => n.voice == some bassVoice)
  if bi < sorted.length then
    let lowestPitch := minPitchOf sorted
    let dropped := modifyAt sorted bi (fun n => { n with pitch := octShiftDown n.pitch lowestPitch })
    { chord with notes := walkUp dropped }
  else { chord with notes := sorted }

/-- One iteration of the search loop of `optimizeChordVoicing`.  The state
carries the chord's note list (mutated by the temporary assignment, by
`calculateVoiceLeadingCost`'s aliased writes, and by the reset to
`undefined`), the best assignment so far and the lowest cost so far
(`Infinity` = `none`). -/
def searchStep (prevChord currentChord : Chord)
    (st : List Note × Option (List Nat) × Option Nat) (assignment : List Nat) :
    List Note × Option (List Nat) × Option Nat :=
  let uIdx := unfixedIdx currentChord
  let ns1 := setVoicesAt st.1 uIdx (assignment.map some)
  let res := calculateVoiceLeadingCost prevChord { currentChord with notes := ns1 } assignment
  let better : Bool := match st.2.2 with
    | none => true
    | some c => decide (res.1 < c)
  let ns3 := setVoicesAt res.2.notes uIdx (uIdx.map (fun _ => (none : Option Nat)))
  (ns3, if better then some assignment else st.2.1, if better then some res.1 else st.2.2)

/-- The brute-force search of `optimizeChordVoicing`, up to and including the
commit of the best assignment (everything before the `adjustOctaves` call). -/
def optimizeChordVoicingSearch (prevChord currentChord : Chord) (numVoices : Nat) : Chord :=
  let uIdx := unfixedIdx currentChord
  let possibleAssignments := generateVoiceAssignments currentChord numVoices
  let out := possibleAssignments.foldl (searchStep prevChord currentChord)
    (currentChord.notes, none, none)
  match out.2.1 with
  | some best => { currentChord with notes := setVoicesAt out.1 uIdx (best.map some) }
  | none => { currentChord with notes := out.1 }

/-- `optimizeChordVoicing`: nothing to do when every note already has a
voice (in that case `adjustOctaves` is skipped too); otherwise run the
search and normalize the octaves of the result. -/
def optimizeChordVoicing (prevChord currentChord : Chord) (numVoices : Nat) : Chord :=
  if (unfixedIdx currentChord).isEmpty then currentChord
  else adjustOctaves (optimizeChordVoicingSearch prevChord currentChord numVoices)

/-- `flattenChordsToNotes` (the `{...note}` copies are value semantics here). -/
def flattenChordsToNotes (chords : List Chord) : List Note :=
  chords.flatMap (·.notes)

/-- `adjustHarmonyOctaveRelativeToMelody`: one global pass lifting every
harmony note (defined voice ≠ 0) by whole octaves when the lowest melody
pitch sits more than an octave above the highest harmony pitch. -/
def adjustHarmonyOctaveRelativeToMelody (chords : List Chord) : List Chord :=
  let allNotes := flattenChordsToNotes chords
  let melodyNotes := allNotes.filter (fun n => n.voice == some 0)
  let harmonyNotes := allNotes.filter (fun n => n.voice.isSome && n.voice != some 0)
  if melodyNotes.isEmpty || harmonyNotes.isEmpty then chords
  else
    let minMelodyPitch := minPitchOf melodyNotes
    let maxHarmonyPitch := maxPitchOf harmonyNotes
    let gap := minMelodyPitch - maxHarmonyPitch
    if gap > 12 then
      let pitchAdjustment := (gap - 1) / 12 * 12
      if pitchAdjustment > 0 then
        chords.map (fun c =>
          { c with notes := c.notes.map (fun n =>
              if n.voice.isSome && n.voice != some 0 then
                { n with pitch := n.pitch + pitchAdjustment }
              else n) })
      else chords
    else chords

/-- The `for (i = 1; i < chords.length; i++)` loop of `optimizeVoiceLeading`:
each chord is optimized against the already-processed previous chord. -/
def processChords (numVoices : Nat) : Chord → List Chord → List Chord
  | _, [] => []
  | prev, c :: rest =>
      let c2 := optimizeChordVoicing prev c numVoices
      c2 :: processChords numVoices c2 rest

/-- `optimizeVoiceLeading`.  When the chord list is empty the source
evaluates `assignVoicesToFirstChord(chords[0], …)` with `chords[0]`
`undefined` and throws a TypeError; this is modelled as `none`. -/
def optimizeVoiceLeading (melodyNotes harmonyNotes : List Note) : Option (List Note) :=
  match identifyChords melodyNotes harmonyNotes with
  | [] => none
  | c0 :: rest =>
      let numVoices := determineVoiceCount (c0 :: rest)
      let first := assignVoicesToFirstChord c0 numVoices
      let processed := first :: processChords numVoices first rest
      let balanced := adjustHarmonyOctaveRelativeToMelody processed
      some (flattenChordsToNotes balanced)

/-- The cost the search loop of `optimizeChordVoicing` attributes to one
candidate assignment: the temporary voices are written to the unfixed notes
and the cost model is evaluated (performing its own aliased writes). -/
def costOf (prevChord currentChord : Chord) (a : List Nat) : Nat :=
  (calculateVoiceLeadingCost prevChord
    { currentChord with notes := setVoicesAt currentChord.notes (unfixedIdx currentChord) (a.map some) }
    a).1

/-- The `(bestAssignment, lowestCost)` selection step of the search loop of
`optimizeChordVoicing`, abstracted over the cost function: keep the new
assignment exactly when its cost is strictly below the lowest so far
(`Infinity` at the start, modelled by `none`). -/
def selStep (f : List Nat → Nat) (st : Option (List Nat) × Option Nat) (a : List Nat) :
    Option (List Nat) × Option Nat :=
  if (match st.2 with | none => true | some c => decide (f a < c)) then (some a, some (f a))
  else st

/-- The fields of a note that the optimizer never writes (everything except
pitch and voice). -/
def noteShape (n : Note) : Int × Int := (n.position, n.duration)

/-- The fields of a note that the voice-assignment phase never writes
(everything except voice). -/
def noteBody (n : Note) : Int × Int × Int := (n.pitch, n.position, n.duration)

/-- The note-list states reachable inside the search loop of
`optimizeChordVoicing` on `currentChord`: same bodies (pitch, position,
duration) as the original chord everywhere, and the same voices outside the
indices the loop writes — the unfixed indices (temporary assignment and
reset) and the first `k` indices (the cost model's aliased writes, `k` being
the number of unfixed notes). -/
def agreesOffClobber (currentChord : Chord) (ns : List Note) : Prop :=
  ns.length = currentChord.notes.length ∧
  (∀ i, noteBody (ns.getD i default) = noteBody (currentChord.notes.getD i default)) ∧
  (∀ i, i ∉ unfixedIdx currentChord → ¬ i < (unfixedIdx currentChord).length →
    (ns.getD i default).voice = (currentChord.notes.getD i default).voice)

/-! ## Spec-side definitions

The following definitions are written from the words of the specification
and of the claims (not from the source); they state the properties the
spec asserts of an output note list, so that the code's behaviour can be
compared against them. -/

/-- The distinct chord positions of an output note list. -/
def chordPositions (notes : List Note) : List Int := (notes.map (·.position)).dedup

/-- The notes of the output chord at position `p`. -/
def notesAt (notes : List Note) (p : Int) : List Note :=
  notes.filter (fun n => n.position == p)

/-- Spec §8 melody invariance: every output note matching an input melody
note by pitch and position carries voice 0. -/
def specMelodyInvariance (melodyNotes out : List Note) : Bool :=
  out.all fun n =>
    !(melodyNotes.any fun m => m.pitch == n.pitch && m.position == n.position) ||
      n.voice == some 0

/-- Spec §8 voice uniqueness: no two notes of an output chord share a voice
index. -/
def specVoiceUnique (out : List Note) : Bool :=
  (chordPositions out).all fun p => ((notesAt out p).map voiceOr0).dedup.length == (notesAt out p).length

/-- Spec §8 bass-lowest: in every output chord with at least two notes, a
note carrying the maximal voice index has the minimal pitch of the chord. -/
def specBassLowest (out : List Note) : Bool :=
  (chordPositions out).all fun p =>
    let c := notesAt out p
    decide (c.length < 2) ||
      c.all fun a =>
        !(c.all fun b => voiceOr0 b ≤ voiceOr0 a) || c.all fun b => decide (a.pitch ≤ b.pitch)

/-- Claim C6, first part: within every output chord, pitch strictly
decreases as the voice index increases. -/
def specNoCrossingStrict (out : List Note) : Bool :=
  (chordPositions out).all fun p =>
    let c := notesAt out p
    c.all fun a => c.all fun b => !(voiceOr0 a < voiceOr0 b) || decide (b.pitch < a.pitch)

/-- Claim C6, second part: any two notes of an output chord on adjacent
voice indices differ in pitch by at most 12 semitones. -/
def specOctaveSpan (out : List Note) : Bool :=
  (chordPositions out).all fun p =>
    let c := notesAt out p
    c.all fun a => c.all fun b =>
      !(voiceOr0 b == voiceOr0 a + 1) || (a.pitch - b.pitch).natAbs ≤ 12

/-- Claim C3's cost formula, written from the claim's words over the
voicing produced by the cost model's own assignment step.  The spacing
term reads "pitches differ by more than 12 semitones", i.e. an absolute
difference.  Pairs of candidate notes are enumerated in voice order (the
per-pair predicates are symmetric, so the enumeration order is
immaterial). -/
def claimCostC3 (prevChord currentChord : Chord) (va : List Nat) : Nat :=
  let assigned := writeFirstVoices currentChord.notes va
  let prevSorted := sortByVoice prevChord.notes
  let currentSorted := sortByVoice assigned
  let crossTerm := 1000 *
    pairCountP (fun a b =>
      (voiceOr0 a < voiceOr0 b && decide (a.pitch < b.pitch)) ||
      (voiceOr0 b < voiceOr0 a && decide (b.pitch < a.pitch))) currentSorted
  let voiceAdjacent := fun (a b : Note) =>
    (voiceOr0 a < voiceOr0 b &&
      currentSorted.all (fun c => !(voiceOr0 a < voiceOr0 c && voiceOr0 c < voiceOr0 b)))
  let spacingTerm := 100 *
    pairCountP (fun a b =>
      (voiceAdjacent a b || voiceAdjacent b a) && (a.pitch - b.pitch).natAbs > 12) currentSorted
  let parallelTerm := 500 *
    pairCountP (fun pi pj =>
      match currentSorted.find? (fun n => n.voice == pi.voice),
            currentSorted.find? (fun n => n.voice == pj.voice) with
      | some ci, some cj =>
        isParallelFifthOrOctave ((pi.pitch - pj.pitch).natAbs) ((ci.pitch - cj.pitch).natAbs)
      | _, _ => false) prevSorted
  let movementTerm :=
    (prevSorted.map (fun p =>
      match currentSorted.find? (fun n => n.voice == p.voice) with
      | some c => (p.pitch - c.pitch).natAbs * 2
      | none => 0)).sum
  crossTerm + spacingTerm + parallelTerm + movementTerm

/-- The amended C3 cost formula: identical to `claimCostC3` except that the
spacing term is directional, penalizing a voice-adjacent pair only when the
lower-voice-index note sounds more than 12 semitones above the next
voice. -/
def claimCostC3Amended (prevChord currentChord : Chord) (va : List Nat) : Nat :=
  let assigned := writeFirstVoices currentChord.notes va
  let prevSorted := sortByVoice prevChord.notes
  let currentSorted := sortByVoice assigned
  let crossTerm := 1000 *
    pairCountP (fun a b =>
      (voiceOr0 a < voiceOr0 b && decide (a.pitch < b.pitch)) ||
      (voiceOr0 b < voiceOr0 a && decide (b.pitch < a.pitch))) currentSorted
  let voiceAdjacent := fun (a b : Note) =>
    (voiceOr0 a < voiceOr0 b &&
      currentSorted.all (fun c => !(voiceOr0 a < voiceOr0 c && voiceOr0 c < voiceOr0 b)))
  let spacingTerm := 100 *
    pairCountP (fun a b =>
      (voiceAdjacent a b && decide (a.pitch - b.pitch > 12)) ||
      (voiceAdjacent b a && decide (b.pitch - a.pitch > 12))) currentSorted
  let parallelTerm := 500 *
    pairCountP (fun pi pj =>
      match currentSorted.find? (fun n => n.voice == pi.voice),
            currentSorted.find? (fun n => n.voice == pj.voice) with
      | some ci, some cj =>
        isParallelFifthOrOctave ((pi.pitch - pj.pitch).natAbs) ((ci.pitch - cj.pitch).natAbs)
      | _, _ => false) prevSorted
  let movementTerm :=
    (prevSorted.map (fun p =>
      match currentSorted.find? (fun n => n.voice == p.voice) with
      | some c => (p.pitch - c.pitch).natAbs * 2
      | none => 0)).sum
  crossTerm + spacingTerm + parallelTerm + movementTerm

/-! ## Concrete fixtures used by the witness theorems -/

/-- A one-note previous chord (voice 1, pitch 10) for witness instances. -/
def exPrev : Chord := ⟨0, [⟨10, 0, 8, some 1⟩], none⟩

/-- A two-note unvoiced current chord for witness instances. -/
def exCur : Chord := ⟨8, [⟨74, 8, 8, none⟩, ⟨50, 8, 8, none⟩], none⟩

/-- A fully voiced two-note chord for the octave-normalizer witnesses. -/
def exChord : Chord := ⟨0, [⟨60, 0, 8, some 0⟩, ⟨55, 0, 8, some 1⟩], none⟩

/-- A voiced chord list with a 32-semitone melody-to-harmony gap for the
balancer witness. -/
def exChords : List Chord := [⟨0, [⟨72, 0, 8, some 0⟩, ⟨40, 0, 8, some 1⟩], none⟩]

end PianoRoll
namespace PianoRoll

/-! ## Index-update helper lemmas -/

theorem length_modifyAt (l : List Note) (i : Nat) (f : Note → Note) :
    (modifyAt l i f).length = l.length := by
  induction l generalizing i with
  | nil => rfl
  | cons x xs ih =>
    cases i with
    | zero => simp [modifyAt]
    | succ n => simp [modifyAt, ih]

theorem getD_modifyAt_self (l : List Note) (i : Nat) (f : Note → Note) (d : Note)
    (h : i < l.length) : (modifyAt l i f).getD i d = f (l.getD i d) := by
  induction l generalizing i with
  | nil => simp at h
  | cons x xs ih =>
    cases i with
    | zero => simp [modifyAt]
    | succ n =>
      simp only [modifyAt, List.getD_cons_succ]
      exact ih n (by simpa using h)

theorem getD_modifyAt_ne (l : List Note) (i j : Nat) (f : Note → Note) (d : Note)
    (h : i ≠ j) : (modifyAt l i f).getD j d = l.getD j d := by
  induction l generalizing i j with
  | nil => rfl
  | cons x xs ih =>
    cases i with
    | zero =>
      cases j with
      | zero => exact absurd rfl h
      | succ m => simp [modifyAt]
    | succ n =>
      cases j with
      | zero => simp [modifyAt]
      | succ m =>
        simp only [modifyAt, List.getD_cons_succ]
        exact ih n m (by omega)

theorem length_setVoicesAt (ns : List Note) (idxs : List Nat) (vs : List (Option Nat)) :
    (setVoicesAt ns idxs vs).length = ns.length := by
  induction idxs generalizing ns vs with
  | nil => rfl
  | cons i is ih =>
    cases vs with
    | nil => rfl
    | cons v vt =>
      simp only [setVoicesAt, List.zip_cons_cons, List.foldl_cons]
      have := ih (modifyAt ns i (fun n => { n with voice := v })) vt
      simpa [setVoicesAt, length_modifyAt] using this

theorem getD_setVoicesAt_not_mem (ns : List Note) (idxs : List Nat) (vs : List (Option Nat))
    (j : Nat) (d : Note) (h : j ∉ idxs) :
    (setVoicesAt ns idxs vs).getD j d = ns.getD j d := by
  induction idxs generalizing ns vs with
  | nil => rfl
  | cons i is ih =>
    cases vs with
    | nil => rfl
    | cons v vt =>
      simp only [setVoicesAt, List.zip_cons_cons, List.foldl_cons]
      have hj : j ∉ is := fun hm => h (List.mem_cons_of_mem _ hm)
      have hij : i ≠ j := fun he => h (he ▸ List.mem_cons_self _ _)
      have := ih (modifyAt ns i (fun n => { n with voice := v })) vt hj
      simpa [setVoicesAt] using this.trans (getD_modifyAt_ne ns i j _ d hij)

theorem getD_writeFirstVoices_lt (ns : List Note) (va : List Nat) (i : Nat) (d : Note)
    (h1 : i < va.length) (h2 : i < ns.length) :
    (writeFirstVoices ns va).getD i d =
      { ns.getD i d with voice := some (va.getD i 0) } := by
  induction ns generalizing va i with
  | nil => simp at h2
  | cons n nt ih =>
    cases va with
    | nil => simp at h1
    | cons v vt =>
      cases i with
      | zero => simp [writeFirstVoices]
      | succ m =>
        simp only [writeFirstVoices, List.getD_cons_succ]
        exact ih vt m (by simpa using h1) (by simpa using h2)

theorem getD_writeFirstVoices_ge (ns : List Note) (va : List Nat) (i : Nat) (d : Note)
    (h1 : ¬ i < va.length) :
    (writeFirstVoices ns va).getD i d = ns.getD i d := by
  induction ns generalizing va i with
  | nil => cases va <;> rfl
  | cons n nt ih =>
    cases va with
    | nil => rfl
    | cons v vt =>
      cases i with
      | zero => simp at h1
      | succ m =>
        simp only [writeFirstVoices, List.getD_cons_succ]
        exact ih vt m (by simp at h1 ⊢; omega)

theorem length_writeFirstVoices (ns : List Note) (va : List Nat) :
    (writeFirstVoices ns va).length = ns.length := by
  induction ns generalizing va with
  | nil => cases va <;> rfl
  | cons n nt ih => cases va <;> simp [writeFirstVoices, ih]

theorem eq_of_getD (ns ms : List Note) (hl : ns.length = ms.length)
    (h : ∀ i, i < ns.length → ns.getD i default = ms.getD i default) : ns = ms := by
  induction ns generalizing ms with
  | nil => exact (List.length_eq_zero.mp hl.symm).symm
  | cons x xs ih =>
    cases ms with
    | nil => simp at hl
    | cons y ys =>
      have h0 := h 0 (by simp)
      simp only [List.getD_cons_zero] at h0
      have ht : xs = ys := by
        refine ih ys (by simpa using hl) ?_
        intro i hi
        have := h (i + 1) (by simpa using Nat.succ_lt_succ hi)
        simpa using this
      rw [h0, ht]

end PianoRoll
namespace PianoRoll

theorem modifyAt_eq_self_of_ge (l : List Note) (i : Nat) (f : Note → Note)
    (h : ¬ i < l.length) : modifyAt l i f = l := by
  induction l generalizing i with
  | nil => rfl
  | cons x xs ih =>
    cases i with
    | zero => simp at h
    | succ n =>
      simp only [modifyAt, List.cons.injEq, true_and]
      exact ih n (by simp at h ⊢; omega)

theorem getD_setVoicesAt_mem (ns : List Note) (idxs : List Nat) (vs : List (Option Nat))
    (t : Nat) (d : Note) (hnd : idxs.Nodup) (ht : t < idxs.length) (htv : t < vs.length) :
    (setVoicesAt ns idxs vs).getD (idxs.getD t 0) d =
      { ns.getD (idxs.getD t 0) d with voice := vs.getD t none } ∨
    ¬ idxs.getD t 0 < ns.length := by
  induction idxs generalizing ns vs t with
  | nil => simp at ht
  | cons i is ih =>
    cases vs with
    | nil => simp at htv
    | cons v vt =>
      simp only [setVoicesAt, List.zip_cons_cons, List.foldl_cons]
      cases t with
      | zero =>
        by_cases hlen : i < ns.length
        · left
          have hni : i ∉ is := (List.nodup_cons.mp hnd).1
          have hrest := getD_setVoicesAt_not_mem
            (modifyAt ns i (fun n => { n with voice := v })) is vt i d hni
          simp only [setVoicesAt] at hrest
          simp only [List.getD_cons_zero]
          rw [hrest, getD_modifyAt_self ns i _ d hlen]
        · right
          simpa using hlen
      | succ m =>
        have hnd2 : is.Nodup := (List.nodup_cons.mp hnd).2
        have hm : m < is.length := by simpa using ht
        have hmv : m < vt.length := by simpa using htv
        have := ih (modifyAt ns i (fun n => { n with voice := v })) vt m hnd2 hm hmv
        simp only [setVoicesAt] at this
        simp only [List.getD_cons_succ]
        rcases this with heq | hge
        · by_cases hji : is.getD m 0 = i
          · -- impossible: i ∉ is but is.getD m 0 ∈ is
            have : is.getD m 0 ∈ is := by
              have h1 : is.getD m 0 = is[m] := List.getD_eq_getElem is 0 hm
              rw [h1]
              exact List.getElem_mem hm
            rw [hji] at this
            exact absurd this (List.nodup_cons.mp hnd).1
          · left
            rw [heq, getD_modifyAt_ne ns i _ _ d (fun he => hji he.symm)]
        · right
          rwa [length_modifyAt] at hge

theorem noteBody_getD_modifyAt (l : List Note) (i j : Nat) (f : Note → Note) (d : Note)
    (hf : ∀ n, noteBody (f n) = noteBody n) :
    noteBody ((modifyAt l i f).getD j d) = noteBody (l.getD j d) := by
  by_cases hi : i < l.length
  · by_cases hij : i = j
    · subst hij
      rw [getD_modifyAt_self l i f d hi, hf]
    · rw [getD_modifyAt_ne l i j f d hij]
  · rw [modifyAt_eq_self_of_ge l i f hi]

theorem noteBody_getD_setVoicesAt (ns : List Note) (idxs : List Nat) (vs : List (Option Nat))
    (j : Nat) (d : Note) :
    noteBody ((setVoicesAt ns idxs vs).getD j d) = noteBody (ns.getD j d) := by
  induction idxs generalizing ns vs with
  | nil => rfl
  | cons i is ih =>
    cases vs with
    | nil => rfl
    | cons v vt =>
      simp only [setVoicesAt, List.zip_cons_cons, List.foldl_cons]
      have := ih (modifyAt ns i (fun n => { n with voice := v })) vt
      simp only [setVoicesAt] at this
      rw [this, noteBody_getD_modifyAt]
      intro n
      rfl

theorem noteBody_getD_writeFirstVoices (ns : List Note) (va : List Nat) (j : Nat) (d : Note) :
    noteBody ((writeFirstVoices ns va).getD j d) = noteBody (ns.getD j d) := by
  by_cases h1 : j < va.length
  · by_cases h2 : j < ns.length
    · rw [getD_writeFirstVoices_lt ns va j d h1 h2]
      rfl
    · have h3 : ¬ j < (writeFirstVoices ns va).length := by
        rwa [length_writeFirstVoices]
      rw [List.getD_eq_default _ _ (by omega), List.getD_eq_default _ _ (by omega)]
  · rw [getD_writeFirstVoices_ge ns va j d h1]

end PianoRoll
namespace PianoRoll

/-! ## Octave-normalizer lemmas -/

theorem stepAdjust_bounds (c l : Int) : l ≤ stepAdjust c l ∧ stepAdjust c l - l ≤ 12 := by
  have h1 := Int.ediv_add_emod (l - c) 12
  have h2 : 0 ≤ (l - c).emod 12 := Int.emod_nonneg _ (by norm_num)
  have h3 : (l - c).emod 12 < 12 := Int.emod_lt_of_pos _ (by norm_num)
  have h4 := Int.ediv_add_emod (c - l) 12
  have h5 : 0 ≤ (c - l).emod 12 := Int.emod_nonneg _ (by norm_num)
  have h6 : (c - l).emod 12 < 12 := Int.emod_lt_of_pos _ (by norm_num)
  simp only [stepAdjust]
  split_ifs <;> omega

theorem length_walkUp (l : List Note) : (walkUp l).length = l.length := by
  induction l with
  | nil => rfl
  | cons n rest ih =>
    cases rest with
    | nil => rfl
    | cons m rest2 =>
      simp only [walkUp]
      cases hw : walkUp (m :: rest2) with
      | nil => rw [hw] at ih; simp at ih
      | cons lower r2 =>
        rw [hw] at ih
        simp at ih ⊢
        omega

theorem walkUp_chain (l : List Note) :
    List.Chain' (fun a b => b.pitch ≤ a.pitch ∧ a.pitch - b.pitch ≤ 12) (walkUp l) := by
  induction l with
  | nil => simp [walkUp]
  | cons n rest ih =>
    cases rest with
    | nil => simp [walkUp]
    | cons m rest2 =>
      simp only [walkUp]
      cases hw : walkUp (m :: rest2) with
      | nil =>
        have := length_walkUp (m :: rest2)
        rw [hw] at this
        simp at this
      | cons lower r2 =>
        rw [hw] at ih
        refine List.Chain'.cons ?_ ih
        exact ⟨(stepAdjust_bounds n.pitch lower.pitch).1, (stepAdjust_bounds n.pitch lower.pitch).2⟩

theorem walkUp_map_eq {β : Type} (f : Note → β) (hf : ∀ n p, f { n with pitch := p } = f n)
    (l : List Note) : (walkUp l).map f = l.map f := by
  induction l with
  | nil => rfl
  | cons n rest ih =>
    cases rest with
    | nil => rfl
    | cons m rest2 =>
      simp only [walkUp]
      cases hw : walkUp (m :: rest2) with
      | nil =>
        have := length_walkUp (m :: rest2)
        rw [hw] at this
        simp at this
      | cons lower r2 =>
        rw [hw] at ih
        simp only [List.map_cons] at ih ⊢
        rw [hf]
        exact congrArg _ ih

theorem modifyAt_map_eq {β : Type} (f : Note → Note) (g : Note → β)
    (hf : ∀ n, g (f n) = g n) (l : List Note) (i : Nat) :
    (modifyAt l i f).map g = l.map g := by
  induction l generalizing i with
  | nil => rfl
  | cons x xs ih =>
    cases i with
    | zero => simp [modifyAt, hf]
    | succ n => simp [modifyAt, ih]

theorem sortByVoice_perm (l : List Note) : List.Perm (sortByVoice l) l :=
  List.perm_insertionSort _ l

theorem sortByVoice_sorted (l : List Note) :
    List.Pairwise (fun a b => voiceOr0 a ≤ voiceOr0 b) (sortByVoice l) := by
  haveI : IsTotal Note (fun a b => voiceOr0 a ≤ voiceOr0 b) := ⟨fun a b => Nat.le_total _ _⟩
  haveI : IsTrans Note (fun a b => voiceOr0 a ≤ voiceOr0 b) := ⟨fun a b c => Nat.le_trans⟩
  exact List.sorted_insertionSort _ l

theorem sortByVoice_strict (l : List Note) (h : (l.map voiceOr0).Nodup) :
    List.Pairwise (fun a b => voiceOr0 a < voiceOr0 b) (sortByVoice l) := by
  have hperm : List.Perm ((sortByVoice l).map voiceOr0) (l.map voiceOr0) :=
    (sortByVoice_perm l).map voiceOr0
  have hnd : ((sortByVoice l).map voiceOr0).Nodup := hperm.nodup_iff.mpr h
  have hne : List.Pairwise (fun a b => voiceOr0 a ≠ voiceOr0 b) (sortByVoice l) :=
    (List.pairwise_map).mp hnd
  exact ((sortByVoice_sorted l).and hne).imp (fun hab => lt_of_le_of_ne hab.1 hab.2)

/-! ## Fold-max lemmas -/

theorem le_foldl_max_init (l : List Nat) (a : Nat) : a ≤ l.foldl max a := by
  induction l generalizing a with
  | nil => simp
  | cons y ys ih => exact le_trans (le_max_left a y) (ih (max a y))

theorem le_foldl_max (l : List Nat) (a : Nat) : ∀ x ∈ l, x ≤ l.foldl max a := by
  induction l generalizing a with
  | nil => simp
  | cons y ys ih =>
    intro x hx
    rcases List.mem_cons.mp hx with h | h
    · subst h
      calc x ≤ max a x := le_max_right _ _
        _ ≤ ys.foldl max (max a x) := le_foldl_max_init ys (max a x)
    · exact ih (max a y) x h

theorem foldl_max_mem (l : List Nat) (a : Nat) : l.foldl max a = a ∨ l.foldl max a ∈ l := by
  induction l generalizing a with
  | nil => left; rfl
  | cons y ys ih =>
    rcases ih (max a y) with h | h
    · rcases Nat.le_total a y with hy | hy
      · right
        simp only [List.foldl_cons, h]
        simp [Nat.max_eq_right hy]
      · left
        simp only [List.foldl_cons, h]
        simp [Nat.max_eq_left hy]
    · right
      exact List.mem_cons_of_mem _ h

theorem foldl_max_zero_mem (l : List Nat) (h : l ≠ []) : l.foldl max 0 ∈ l := by
  rcases foldl_max_mem l 0 with h0 | hm
  · cases l with
    | nil => exact absurd rfl h
    | cons x xs =>
      have hx : x ≤ (x :: xs).foldl max 0 := le_foldl_max _ _ x (List.mem_cons_self _ _)
      rw [h0] at hx
      have : x = 0 := Nat.le_zero.mp hx
      rw [h0, ← this]
      exact List.mem_cons_self _ _
  · exact hm

end PianoRoll
namespace PianoRoll

theorem chain'_and {p q : Note → Note → Prop} {l : List Note}
    (hp : List.Chain' p l) (hq : List.Chain' q l) :
    List.Chain' (fun a b => p a b ∧ q a b) l := by
  induction l with
  | nil => simp
  | cons a t ih =>
    cases t with
    | nil => simp
    | cons b t2 =>
      rw [List.chain'_cons] at hp hq ⊢
      exact ⟨⟨hp.1, hq.1⟩, ih hp.2 hq.2⟩

theorem adjustOctaves_pairwise (chord : Chord)
    (hsome : ∀ n ∈ chord.notes, n.voice.isSome)
    (hnd : (chord.notes.map voiceOr0).Nodup) :
    List.Pairwise (fun a b => voiceOr0 a < voiceOr0 b) ((adjustOctaves chord).notes) ∧
    List.Chain' (fun a b => b.pitch ≤ a.pitch ∧ a.pitch - b.pitch ≤ 12)
      ((adjustOctaves chord).notes) := by
  by_cases hne : chord.notes = []
  · have hs : sortByVoice chord.notes = [] := by rw [hne]; rfl
    simp only [adjustOctaves, hs]
    simp
  · -- the find over the sorted list succeeds, so the normalizing branch runs
    set s := sortByVoice chord.notes with hsdef
    have hslen : s ≠ [] := by
      intro h0
      have := (sortByVoice_perm chord.notes).length_eq
      rw [← hsdef, h0] at this
      exact hne (List.length_eq_zero.mp (by simpa using this.symm))
    have hmem : (s.map voiceOr0).foldl max 0 ∈ s.map voiceOr0 :=
      foldl_max_zero_mem _ (by simpa using hslen)
    obtain ⟨n, hn, hkey⟩ := List.mem_map.mp hmem
    have hnsome : n.voice.isSome := hsome n ((sortByVoice_perm chord.notes).mem_iff.mp hn)
    have hveq : n.voice = some ((s.map voiceOr0).foldl max 0) := by
      rcases Option.isSome_iff_exists.mp hnsome with ⟨v, hv⟩
      rw [hv]
      rw [← hkey]
      simp [voiceOr0, hv]
    have hfind : s.findIdx (fun n => n.voice == some ((s.map voiceOr0).foldl max 0)) < s.length := by
      apply List.findIdx_lt_length_of_exists
      exact ⟨n, hn, by simp [hveq]⟩
    have hres : (adjustOctaves chord).notes =
        walkUp (modifyAt s (s.findIdx (fun n => n.voice == some ((s.map voiceOr0).foldl max 0)))
          (fun n => { n with pitch := octShiftDown n.pitch (minPitchOf s) })) := by
      simp only [adjustOctaves, ← hsdef]
      rw [if_pos hfind]
    constructor
    · -- strict voice ordering is preserved from the sorted list
      have hmapeq : ((adjustOctaves chord).notes).map voiceOr0 = s.map voiceOr0 := by
        rw [hres, walkUp_map_eq voiceOr0 (fun n p => rfl)]
        exact modifyAt_map_eq
          (fun n => { n with pitch := octShiftDown n.pitch (minPitchOf s) }) voiceOr0
          (fun n => rfl) s _
      have hstrict := sortByVoice_strict chord.notes hnd
      have h1 : List.Pairwise (· < ·) (s.map voiceOr0) := (List.pairwise_map).mpr hstrict
      have h2 : List.Pairwise (· < ·) (((adjustOctaves chord).notes).map voiceOr0) := by
        rw [hmapeq]; exact h1
      exact (List.pairwise_map).mp h2
    · rw [hres]
      exact walkUp_chain _

/-- C5 (amended): after `adjustOctaves` on a chord whose notes carry
pairwise-distinct defined voices, every note of maximal voice index has the
minimal pitch of the chord.  The pipeline-wide claim fails (the first chord
is never normalized; see the counterexample). -/
theorem adjustOctaves_bass_lowest (chord : Chord)
    (hsome : ∀ n ∈ chord.notes, n.voice.isSome)
    (hnd : (chord.notes.map voiceOr0).Nodup) :
    ∀ a ∈ (adjustOctaves chord).notes,
      (∀ c ∈ (adjustOctaves chord).notes, voiceOr0 c ≤ voiceOr0 a) →
      ∀ b ∈ (adjustOctaves chord).notes, a.pitch ≤ b.pitch := by
  obtain ⟨hkeys, hchain⟩ := adjustOctaves_pairwise chord hsome hnd
  haveI : IsTrans Note (fun a b : Note => b.pitch ≤ a.pitch) :=
    ⟨fun a b c hab hbc => le_trans hbc hab⟩
  have hpitch : List.Pairwise (fun a b : Note => b.pitch ≤ a.pitch)
      ((adjustOctaves chord).notes) :=
    (List.chain'_iff_pairwise).mp (hchain.imp (fun _ _ h => h.1))
  have hpw := hkeys.and hpitch
  have hsym : List.Pairwise
      (fun a b : Note => (voiceOr0 a < voiceOr0 b ∧ b.pitch ≤ a.pitch) ∨
        (voiceOr0 b < voiceOr0 a ∧ a.pitch ≤ b.pitch))
      ((adjustOctaves chord).notes) := hpw.imp Or.inl
  have hforall := hsym.forall (fun a b h => Or.symm h)
  intro a ha hmax b hb
  by_cases hab : a = b
  · exact hab ▸ le_refl _
  · rcases hforall ha hb hab with h | h
    · exact absurd (hmax b hb) (not_le_of_lt h.1)
    · exact h.2

/-- C6 (amended): after `adjustOctaves` on a chord whose notes carry
pairwise-distinct defined voices, consecutive notes have strictly increasing
voices, non-increasing pitch, and a pitch gap of at most 12 semitones.  The
strict pitch decrease of the original claim fails (see the
counterexample). -/
theorem adjustOctaves_voice_order_span (chord : Chord)
    (hsome : ∀ n ∈ chord.notes, n.voice.isSome)
    (hnd : (chord.notes.map voiceOr0).Nodup) :
    List.Chain' (fun a b => voiceOr0 a < voiceOr0 b ∧ b.pitch ≤ a.pitch ∧ a.pitch - b.pitch ≤ 12)
      ((adjustOctaves chord).notes) := by
  obtain ⟨hkeys, hchain⟩ := adjustOctaves_pairwise chord hsome hnd
  exact (chain'_and hkeys.chain' hchain).imp (fun _ _ h => ⟨h.1, h.2.1, h.2.2⟩)

end PianoRoll
namespace PianoRoll

/-! ## Balancer lemmas -/

theorem minPitchOf_le (l : List Note) : ∀ x ∈ l, minPitchOf l ≤ x.pitch := by
  cases l with
  | nil => simp
  | cons n rest =>
    simp only [minPitchOf]
    -- generalize the accumulator
    suffices h : ∀ (a : Int), (∀ x ∈ rest, rest.foldl (fun m x => min m x.pitch) a ≤ x.pitch) ∧
        rest.foldl (fun m x => min m x.pitch) a ≤ a by
      intro x hx
      rcases List.mem_cons.mp hx with hx | hx
      · exact hx ▸ (h n.pitch).2
      · exact (h n.pitch).1 x hx
    intro a
    induction rest generalizing a with
    | nil => simp
    | cons y ys ih =>
      refine ⟨?_, ?_⟩
      · intro x hx
        rcases List.mem_cons.mp hx with hx | hx
        · subst hx
          exact le_trans (ih (min a x.pitch)).2 (min_le_right _ _)
        · exact (ih (min a y.pitch)).1 x hx
      · exact le_trans (ih (min a y.pitch)).2 (min_le_left _ _)

theorem le_maxPitchOf (l : List Note) : ∀ x ∈ l, x.pitch ≤ maxPitchOf l := by
  cases l with
  | nil => simp
  | cons n rest =>
    simp only [maxPitchOf]
    suffices h : ∀ (a : Int), (∀ x ∈ rest, x.pitch ≤ rest.foldl (fun m x => max m x.pitch) a) ∧
        a ≤ rest.foldl (fun m x => max m x.pitch) a by
      intro x hx
      rcases List.mem_cons.mp hx with hx | hx
      · exact hx ▸ (h n.pitch).2
      · exact (h n.pitch).1 x hx
    intro a
    induction rest generalizing a with
    | nil => simp
    | cons y ys ih =>
      refine ⟨?_, ?_⟩
      · intro x hx
        rcases List.mem_cons.mp hx with hx | hx
        · subst hx
          exact le_trans (le_max_right _ _) (ih (max a x.pitch)).2
        · exact (ih (max a y.pitch)).1 x hx
      · exact le_trans (le_max_left _ _) (ih (max a y.pitch)).2

theorem maxPitchOf_map_shift (l : List Note) (s : Int) :
    maxPitchOf (l.map (fun n => { n with pitch := n.pitch + s })) =
      (if l.isEmpty then 0 else maxPitchOf l + s) := by
  cases l with
  | nil => simp [maxPitchOf]
  | cons n rest =>
    simp only [List.map_cons, maxPitchOf, List.isEmpty_cons, if_neg (by simp : ¬ false = true)]
    suffices h : ∀ (a : Int), (rest.map (fun n => { n with pitch := n.pitch + s })).foldl
        (fun m x => max m x.pitch) (a + s) = rest.foldl (fun m x => max m x.pitch) a + s by
      exact h n.pitch
    intro a
    induction rest generalizing a with
    | nil => simp
    | cons y ys ih =>
      simp only [List.map_cons, List.foldl_cons]
      rw [max_add_add_right a y.pitch s]
      exact ih (max a y.pitch)

theorem flatten_map_noteMap (chords : List Chord) (f : Note → Note) :
    flattenChordsToNotes (chords.map (fun c => { c with notes := c.notes.map f })) =
      (flattenChordsToNotes chords).map f := by
  induction chords with
  | nil => rfl
  | cons c cs ih =>
    simp only [flattenChordsToNotes, List.map_cons, List.flatMap_cons] at ih ⊢
    rw [ih, List.map_append]

end PianoRoll
namespace PianoRoll

/-- C8: the GlobalOctaveBalancer leaves the chords unchanged when the
melody-to-harmony gap is at most an octave; otherwise it raises every
harmony note uniformly by `12 * ((gap - 1) / 12)` semitones and leaves all
other notes unchanged, after which the gap is at most 12 semitones. -/
theorem adjustHarmonyOctave_spec (chords : List Chord)
    (hsome : ∀ n ∈ flattenChordsToNotes chords, n.voice.isSome)
    (hm : (flattenChordsToNotes chords).filter (fun n => n.voice == some 0) ≠ [])
    (hh : (flattenChordsToNotes chords).filter
        (fun n => n.voice.isSome && n.voice != some 0) ≠ []) :
    (minPitchOf ((flattenChordsToNotes chords).filter (fun n => n.voice == some 0)) -
        maxPitchOf ((flattenChordsToNotes chords).filter
          (fun n => n.voice.isSome && n.voice != some 0)) ≤ 12 →
      adjustHarmonyOctaveRelativeToMelody chords = chords) ∧
    (12 < minPitchOf ((flattenChordsToNotes chords).filter (fun n => n.voice == some 0)) -
        maxPitchOf ((flattenChordsToNotes chords).filter
          (fun n => n.voice.isSome && n.voice != some 0)) →
      adjustHarmonyOctaveRelativeToMelody chords =
        chords.map (fun c => { c with notes := c.notes.map (fun n =>
          if n.voice.isSome && n.voice != some 0 then
            { n with pitch := n.pitch +
              (minPitchOf ((flattenChordsToNotes chords).filter (fun n => n.voice == some 0)) -
                maxPitchOf ((flattenChordsToNotes chords).filter
                  (fun n => n.voice.isSome && n.voice != some 0)) - 1) / 12 * 12 }
          else n) }) ∧
      minPitchOf ((flattenChordsToNotes (adjustHarmonyOctaveRelativeToMelody chords)).filter
          (fun n => n.voice == some 0)) -
        maxPitchOf ((flattenChordsToNotes (adjustHarmonyOctaveRelativeToMelody chords)).filter
          (fun n => n.voice.isSome && n.voice != some 0)) ≤ 12) := by
  have hmE : ((flattenChordsToNotes chords).filter
      (fun n => n.voice == some 0)).isEmpty = false := by
    rw [List.isEmpty_eq_false]
    exact hm
  have hhE : ((flattenChordsToNotes chords).filter
      (fun n => n.voice.isSome && n.voice != some 0)).isEmpty = false := by
    rw [List.isEmpty_eq_false]
    exact hh
  have hdiv := Int.ediv_add_emod (minPitchOf ((flattenChordsToNotes chords).filter
      (fun n => n.voice == some 0)) -
    maxPitchOf ((flattenChordsToNotes chords).filter
      (fun n => n.voice.isSome && n.voice != some 0)) - 1) 12
  have hr0 : 0 ≤ (minPitchOf ((flattenChordsToNotes chords).filter
      (fun n => n.voice == some 0)) -
    maxPitchOf ((flattenChordsToNotes chords).filter
      (fun n => n.voice.isSome && n.voice != some 0)) - 1).emod 12 :=
    Int.emod_nonneg _ (by norm_num)
  have hr1 : (minPitchOf ((flattenChordsToNotes chords).filter
      (fun n => n.voice == some 0)) -
    maxPitchOf ((flattenChordsToNotes chords).filter
      (fun n => n.voice.isSome && n.voice != some 0)) - 1).emod 12 < 12 :=
    Int.emod_lt_of_pos _ (by norm_num)
  constructor
  · intro hle
    simp only [adjustHarmonyOctaveRelativeToMelody, hmE, hhE, Bool.or_self, Bool.false_eq_true,
      if_false]
    split_ifs with h1 h2 <;> first | rfl | (exfalso; omega)
  · intro hgt
    have heq : adjustHarmonyOctaveRelativeToMelody chords =
        chords.map (fun c => { c with notes := c.notes.map (fun n =>
          if n.voice.isSome && n.voice != some 0 then
            { n with pitch := n.pitch +
              (minPitchOf ((flattenChordsToNotes chords).filter (fun n => n.voice == some 0)) -
                maxPitchOf ((flattenChordsToNotes chords).filter
                  (fun n => n.voice.isSome && n.voice != some 0)) - 1) / 12 * 12 }
          else n) }) := by
      simp only [adjustHarmonyOctaveRelativeToMelody, hmE, hhE, Bool.or_self, Bool.false_eq_true,
        if_false]
      split_ifs with h1 h2 <;> first | rfl | (exfalso; omega)
    refine ⟨heq, ?_⟩
    rw [heq, flatten_map_noteMap]
    set s := (minPitchOf ((flattenChordsToNotes chords).filter (fun n => n.voice == some 0)) -
      maxPitchOf ((flattenChordsToNotes chords).filter
        (fun n => n.voice.isSome && n.voice != some 0)) - 1) / 12 * 12 with hs
    set f := fun n : Note =>
      if n.voice.isSome && n.voice != some 0 then { n with pitch := n.pitch + s } else n with hf
    have hvoice : ∀ n : Note, (f n).voice = n.voice := by
      intro n
      rw [hf]
      by_cases hc : (n.voice.isSome && n.voice != some 0) = true <;> simp [hc]
    have hfiltm : ((flattenChordsToNotes chords).map f).filter (fun n => n.voice == some 0) =
        (flattenChordsToNotes chords).filter (fun n => n.voice == some 0) := by
      rw [List.filter_map]
      calc ((flattenChordsToNotes chords).filter fun n => (f n).voice == some 0).map f
          = ((flattenChordsToNotes chords).filter fun n => n.voice == some 0).map f := by
            congr 1
            apply List.filter_congr
            intro n _
            rw [hvoice]
        _ = (flattenChordsToNotes chords).filter fun n => n.voice == some 0 := by
            refine (List.map_congr_left ?_).trans (List.map_id _)
            intro n hn
            have h2 := (List.mem_filter.mp hn).2
            rw [hf]
            simp only [beq_iff_eq] at h2
            simp [h2]
    have hfilth : ((flattenChordsToNotes chords).map f).filter
          (fun n => n.voice.isSome && n.voice != some 0) =
        ((flattenChordsToNotes chords).filter
          (fun n => n.voice.isSome && n.voice != some 0)).map
            (fun n => { n with pitch := n.pitch + s }) := by
      rw [List.filter_map]
      calc ((flattenChordsToNotes chords).filter
              fun n => (f n).voice.isSome && (f n).voice != some 0).map f
          = ((flattenChordsToNotes chords).filter
              fun n => n.voice.isSome && n.voice != some 0).map f := by
            congr 1
            apply List.filter_congr
            intro n _
            rw [hvoice]
        _ = ((flattenChordsToNotes chords).filter
              (fun n => n.voice.isSome && n.voice != some 0)).map
                (fun n => { n with pitch := n.pitch + s }) := by
            apply List.map_congr_left
            intro n hn
            have hq := (List.mem_filter.mp hn).2
            rw [hf]
            simp only [hq, if_true]
    rw [hfiltm, hfilth, maxPitchOf_map_shift, hhE]
    simp only [Bool.false_eq_true, if_false]
    omega

end PianoRoll
namespace PianoRoll

/-! ## Permutation-enumeration lemmas -/

theorem flatMap_congr {α β : Type} (l : List α) (f g : α → List β)
    (h : ∀ a ∈ l, f a = g a) : l.flatMap f = l.flatMap g := by
  induction l with
  | nil => rfl
  | cons x xs ih =>
    simp only [List.flatMap_cons, h x (List.mem_cons_self _ _),
      ih (fun a ha => h a (List.mem_cons_of_mem _ ha))]

theorem backtrack_start_irrelevant (array : List Nat) (fuel s t : Nat) (current : List Nat) :
    backtrack array fuel s current = backtrack array fuel t current := by
  cases fuel <;> rfl

theorem enumFrom_filter_flatMap {β : Type} (p : Nat → Bool) (g : Nat → List β) :
    ∀ (l : List Nat) (n : Nat),
      ((l.enumFrom n).filter (fun ix => p ix.2)).flatMap (fun ix => g ix.2) =
        (l.filter p).flatMap g := by
  intro l
  induction l with
  | nil => intro n; rfl
  | cons x xs ih =>
    intro n
    by_cases hp : p x = true
    · simp [List.filter_cons, hp, ih (n+1)]
    · simp only [Bool.not_eq_true] at hp
      simp [List.filter_cons, hp, ih (n+1)]

theorem backtrack_succ (array : List Nat) (fuel s : Nat) (current : List Nat) :
    backtrack array (fuel + 1) s current =
      (array.filter (fun x => !current.contains x)).flatMap
        (fun x => backtrack array fuel 0 (current ++ [x])) := by
  have h0 : backtrack array (fuel + 1) s current =
      (array.enum.filter (fun ix => !current.contains ix.2)).flatMap
        (fun ix => backtrack array fuel (ix.1 + 1) (current ++ [ix.2])) := rfl
  rw [h0, flatMap_congr _ _ (fun ix => backtrack array fuel 0 (current ++ [ix.2]))
    (fun ix _ => backtrack_start_irrelevant array fuel (ix.1 + 1) 0 (current ++ [ix.2]))]
  have h1 : array.enum = array.enumFrom 0 := rfl
  rw [h1]
  exact enumFrom_filter_flatMap (fun y => !current.contains y)
    (fun x => backtrack array fuel 0 (current ++ [x])) array 0

theorem mem_backtrack (array : List Nat) :
    ∀ (fuel : Nat) (current b : List Nat),
      b ∈ backtrack array fuel 0 current ↔
        ∃ ext, b = current ++ ext ∧ ext.length = fuel ∧ ext.Nodup ∧
          ∀ x ∈ ext, x ∈ array ∧ x ∉ current := by
  intro fuel
  induction fuel with
  | zero =>
    intro current b
    constructor
    · intro hb
      simp only [backtrack, List.mem_singleton] at hb
      exact ⟨[], by simp [hb]⟩
    · rintro ⟨ext, hb, hlen, -, -⟩
      have hext : ext = [] := List.length_eq_zero.mp hlen
      subst hext
      simp only [backtrack, List.mem_singleton]
      simpa using hb
  | succ fuel ih =>
    intro current b
    rw [backtrack_succ, List.mem_flatMap]
    constructor
    · rintro ⟨x, hx, hb⟩
      have hxf := List.mem_filter.mp hx
      have hxa : x ∈ array := hxf.1
      have hxc : x ∉ current := by simpa using hxf.2
      rw [ih] at hb
      obtain ⟨ext, hbe, hlen, hnd, hmem⟩ := hb
      refine ⟨x :: ext, by simpa using hbe, by simpa using hlen, ?_, ?_⟩
      · rw [List.nodup_cons]
        refine ⟨fun hxe => ?_, hnd⟩
        have := (hmem x hxe).2
        simp at this
      · intro y hy
        rcases List.mem_cons.mp hy with hy | hy
        · exact hy ▸ ⟨hxa, hxc⟩
        · have hym := hmem y hy
          exact ⟨hym.1, fun hyc => hym.2 (List.mem_append_left _ hyc)⟩
    · rintro ⟨ext, hbe, hlen, hnd, hmem⟩
      cases ext with
      | nil => simp at hlen
      | cons x ext2 =>
        have hx := hmem x (List.mem_cons_self _ _)
        refine ⟨x, List.mem_filter.mpr ⟨hx.1, by simpa using hx.2⟩, ?_⟩
        rw [ih]
        refine ⟨ext2, by simpa using hbe, by simpa using hlen, (List.nodup_cons.mp hnd).2, ?_⟩
        intro y hy
        have hym := hmem y (List.mem_cons_of_mem _ hy)
        refine ⟨hym.1, ?_⟩
        intro hyc
        rcases List.mem_append.mp hyc with h | h
        · exact hym.2 h
        · have hyx : y = x := by simpa using h
          exact (List.nodup_cons.mp hnd).1 (hyx ▸ hy)

theorem nodup_backtrack (array : List Nat) (hnd : array.Nodup) :
    ∀ (fuel : Nat) (current : List Nat), (backtrack array fuel 0 current).Nodup := by
  intro fuel
  induction fuel with
  | zero => intro current; simp [backtrack]
  | succ fuel ih =>
    intro current
    rw [backtrack_succ, List.nodup_flatMap]
    refine ⟨fun x _ => ih (current ++ [x]), ?_⟩
    have hfnd : (array.filter fun x => !current.contains x).Nodup := hnd.filter _
    refine hfnd.imp ?_
    intro x y hxy
    rw [Function.onFun]
    rw [List.disjoint_left]
    intro b hbx hby
    rw [mem_backtrack] at hbx hby
    obtain ⟨e1, hb1, -, -, -⟩ := hbx
    obtain ⟨e2, hb2, -, -, -⟩ := hby
    have g1 : b.get? current.length = some x := by
      rw [hb1]
      have : current ++ [x] ++ e1 = current ++ x :: e1 := by simp
      rw [this, List.get?_append_right (le_refl _)]
      simp
    have g2 : b.get? current.length = some y := by
      rw [hb2]
      have : current ++ [y] ++ e2 = current ++ y :: e2 := by simp
      rw [this, List.get?_append_right (le_refl _)]
      simp
    rw [g1] at g2
    exact hxy (Option.some.inj g2)

end PianoRoll
namespace PianoRoll

/-- C9: generatePermutations returns exactly the injective k-selections. -/
theorem generatePermutations_spec (array : List Nat) (k : Nat)
    (hnd : array.Nodup) (hk : k ≤ array.length) :
    (∀ b, b ∈ generatePermutations array k ↔
        (b.length = k ∧ b.Nodup ∧ ∀ x ∈ b, x ∈ array)) ∧
    (generatePermutations array k).Nodup ∧
    (∀ s current, backtrack array k s current = backtrack array k 0 current) := by
  refine ⟨?_, nodup_backtrack array hnd k [],
    fun s current => backtrack_start_irrelevant array k s 0 current⟩
  intro b
  rw [generatePermutations, mem_backtrack]
  constructor
  · rintro ⟨ext, hb, hlen, hnd2, hmem⟩
    simp only [List.nil_append] at hb
    subst hb
    exact ⟨hlen, hnd2, fun x hx => (hmem x hx).1⟩
  · rintro ⟨hlen, hnd2, hmem⟩
    exact ⟨b, by simp, hlen, hnd2, fun x hx => ⟨hmem x hx, by simp⟩⟩

/-! ## Search-loop lemmas -/

theorem unfixedIdx_nodup (c : Chord) : (unfixedIdx c).Nodup :=
  (List.nodup_range _).filter _

theorem unfixedIdx_lt (c : Chord) : ∀ i ∈ unfixedIdx c, i < c.notes.length := by
  intro i hi
  have := List.mem_filter.mp hi
  simpa using List.mem_range.mp this.1

theorem length_filter_range_getD (p : Note → Bool) (l : List Note) :
    ((List.range l.length).filter (fun i => p (l.getD i default))).length =
      (l.filter p).length := by
  induction l with
  | nil => rfl
  | cons x xs ih =>
    have hrange : List.range (x :: xs).length = 0 :: (List.range xs.length).map Nat.succ := by
      rw [List.length_cons, List.range_succ_eq_map]
    rw [hrange, List.filter_cons, List.filter_map]
    have hcongr : List.filter ((fun i => p ((x :: xs).getD i default)) ∘ Nat.succ)
        (List.range xs.length) = List.filter (fun i => p (xs.getD i default))
        (List.range xs.length) :=
      List.filter_congr (fun i _ => by simp [Function.comp, List.getD_cons_succ])
    rw [hcongr]
    by_cases hx : p x = true
    · simpa [hx, List.filter_cons] using ih
    · simpa [hx, List.filter_cons] using ih

theorem length_unfixedIdx (c : Chord) :
    (unfixedIdx c).length = (c.notes.filter (fun n => n.voice.isNone)).length := by
  have := length_filter_range_getD (fun n => n.voice.isNone) c.notes
  simpa [unfixedIdx] using this

theorem nodup_length_le_of_subset {α : Type} [DecidableEq α] (l m : List α)
    (hnd : l.Nodup) (hsub : ∀ x ∈ l, x ∈ m) : l.length ≤ m.length := by
  have h1 : l.toFinset.card = l.length := List.toFinset_card_of_nodup hnd
  have h2 : l.toFinset ⊆ m.toFinset := by
    intro x hx
    rw [List.mem_toFinset] at hx ⊢
    exact hsub x hx
  have h3 : m.toFinset.card ≤ m.length := by
    rw [List.card_toFinset]
    exact (List.dedup_sublist m).length_le
  calc l.length = l.toFinset.card := h1.symm
    _ ≤ m.toFinset.card := Finset.card_le_card h2
    _ ≤ m.length := h3

theorem length_filter_bool_compl {α : Type} (p : α → Bool) (l : List α) :
    (l.filter p).length + (l.filter (fun x => !p x)).length = l.length := by
  have := (List.filter_append_perm p l).length_eq
  simpa using this

theorem length_filter_some_none (l : List Note) :
    (l.filter (fun n => n.voice.isSome)).length +
      (l.filter (fun n => n.voice.isNone)).length = l.length := by
  have h := length_filter_bool_compl (fun n : Note => n.voice.isSome) l
  rw [← h]
  congr 2
  apply List.filter_congr
  intro n _
  cases n.voice <;> rfl

theorem unfixed_le_available (cur : Chord) (nv : Nat) (hlen : cur.notes.length ≤ nv) :
    (unfixedIdx cur).length ≤ (availableVoices cur nv).length := by
  have hsplit := length_filter_bool_compl
    (fun v => !((cur.notes.filter (fun n => n.voice.isSome)).map (fun n => n.voice)).contains
      (some v)) (List.range nv)
  have hnotnot : ((List.range nv).filter
      (fun v => !!((cur.notes.filter (fun n => n.voice.isSome)).map
        (fun n => n.voice)).contains (some v))) = ((List.range nv).filter
      (fun v => ((cur.notes.filter (fun n => n.voice.isSome)).map
        (fun n => n.voice)).contains (some v))) :=
    List.filter_congr (fun v _ => by rw [Bool.not_not])
  rw [hnotnot] at hsplit
  have hexcl : ((List.range nv).filter
      (fun v => ((cur.notes.filter (fun n => n.voice.isSome)).map
        (fun n => n.voice)).contains (some v))).length ≤
      (cur.notes.filter (fun n => n.voice.isSome)).length := by
    have hnd : ((List.range nv).filter
        (fun v => ((cur.notes.filter (fun n => n.voice.isSome)).map
          (fun n => n.voice)).contains (some v))).Nodup := (List.nodup_range nv).filter _
    have hle1 : (((List.range nv).filter
        (fun v => ((cur.notes.filter (fun n => n.voice.isSome)).map
          (fun n => n.voice)).contains (some v))).map some).length ≤
        ((cur.notes.filter (fun n => n.voice.isSome)).map (fun n => n.voice)).length := by
      apply nodup_length_le_of_subset
      · exact hnd.map (Option.some_injective _)
      · intro x hx
        obtain ⟨v, hv, rfl⟩ := List.mem_map.mp hx
        have h2 := (List.mem_filter.mp hv).2
        simpa using h2
    simpa using hle1
  have hsome := length_filter_some_none cur.notes
  have hu := length_unfixedIdx cur
  have havail : availableVoices cur nv = (List.range nv).filter
      (fun v => !((cur.notes.filter (fun n => n.voice.isSome)).map
        (fun n => n.voice)).contains (some v)) := rfl
  rw [havail]
  have hr : (List.range nv).length = nv := List.length_range nv
  omega

theorem assignments_eq (cur : Chord) (nv : Nat) :
    generateVoiceAssignments cur nv =
      generatePermutations (availableVoices cur nv) ((unfixedIdx cur).length) := by
  rw [generateVoiceAssignments, length_unfixedIdx]

theorem availableVoices_nodup (cur : Chord) (nv : Nat) : (availableVoices cur nv).Nodup :=
  (List.nodup_range nv).filter _

theorem mem_assignments_iff (cur : Chord) (nv : Nat) (b : List Nat) :
    b ∈ generateVoiceAssignments cur nv ↔
      (b.length = (unfixedIdx cur).length ∧ b.Nodup ∧
        ∀ v ∈ b, v ∈ availableVoices cur nv) := by
  rw [assignments_eq, generatePermutations, mem_backtrack]
  constructor
  · rintro ⟨ext, hb, hlen2, hnd2, hmem⟩
    simp only [List.nil_append] at hb
    subst hb
    exact ⟨hlen2, hnd2, fun x hx => (hmem x hx).1⟩
  · rintro ⟨hlen2, hnd2, hmem⟩
    exact ⟨b, by simp, hlen2, hnd2, fun x hx => ⟨hmem x hx, by simp⟩⟩

end PianoRoll
namespace PianoRoll

theorem assignments_ne_nil (cur : Chord) (nv : Nat) (hlen : cur.notes.length ≤ nv) :
    generateVoiceAssignments cur nv ≠ [] := by
  apply List.ne_nil_of_mem (a := (availableVoices cur nv).take ((unfixedIdx cur).length))
  rw [mem_assignments_iff]
  have hle := unfixed_le_available cur nv hlen
  refine ⟨by simp [List.length_take]; omega, ?_, ?_⟩
  · exact (availableVoices_nodup cur nv).sublist (List.take_sublist _ _)
  · intro v hv
    exact List.mem_of_mem_take hv

theorem note_eq_of_body_voice {n1 n2 : Note} (hb : noteBody n1 = noteBody n2)
    (hv : n1.voice = n2.voice) : n1 = n2 := by
  cases n1
  cases n2
  simp only [noteBody, Prod.mk.injEq] at hb
  simp_all

theorem clobbered_state_eq (cur : Chord) (ns : List Note) (a : List Nat)
    (hlen_a : a.length = (unfixedIdx cur).length)
    (hag : agreesOffClobber cur ns) :
    writeFirstVoices (setVoicesAt ns (unfixedIdx cur) (a.map some)) a =
      writeFirstVoices (setVoicesAt cur.notes (unfixedIdx cur) (a.map some)) a := by
  obtain ⟨hlen, hbody, hvoice⟩ := hag
  apply eq_of_getD
  · rw [length_writeFirstVoices, length_setVoicesAt, length_writeFirstVoices,
      length_setVoicesAt, hlen]
  · intro i hi
    have hleni : i < ns.length := by
      rwa [length_writeFirstVoices, length_setVoicesAt] at hi
    have hlencur : i < cur.notes.length := by rwa [hlen] at hleni
    by_cases h1 : i < a.length
    · rw [getD_writeFirstVoices_lt _ _ _ _ h1 (by rwa [length_setVoicesAt]),
        getD_writeFirstVoices_lt _ _ _ _ h1 (by rwa [length_setVoicesAt])]
      have hb := (noteBody_getD_setVoicesAt ns (unfixedIdx cur) (a.map some) i default).trans
        ((hbody i).trans
          (noteBody_getD_setVoicesAt cur.notes (unfixedIdx cur) (a.map some) i default).symm)
      exact note_eq_of_body_voice hb rfl
    · rw [getD_writeFirstVoices_ge _ _ _ _ h1, getD_writeFirstVoices_ge _ _ _ _ h1]
      by_cases h2 : i ∈ unfixedIdx cur
      · -- the unfixed write covers i in both states with the same value
        obtain ⟨t, ht⟩ := List.mem_iff_get.mp h2
        have htd : (unfixedIdx cur).getD t.1 0 = i := by
          rw [List.getD_eq_getElem _ _ t.2]
          simp [← ht, List.get_eq_getElem]
        have htv : t.1 < (a.map some).length := by
          rw [List.length_map, hlen_a]
          exact t.2
        have e1 := getD_setVoicesAt_mem ns (unfixedIdx cur) (a.map some) t.1 default
          (unfixedIdx_nodup cur) t.2 htv
        have e2 := getD_setVoicesAt_mem cur.notes (unfixedIdx cur) (a.map some) t.1 default
          (unfixedIdx_nodup cur) t.2 htv
        rw [htd] at e1 e2
        rcases e1 with e1 | e1
        · rcases e2 with e2 | e2
          · rw [e1, e2]
            exact note_eq_of_body_voice (hbody i) rfl
          · exact absurd hlencur e2
        · exact absurd hleni e1
      · rw [getD_setVoicesAt_not_mem _ _ _ _ _ h2, getD_setVoicesAt_not_mem _ _ _ _ _ h2]
        apply note_eq_of_body_voice (hbody i)
        exact hvoice i h2 (by rwa [hlen_a] at h1)

theorem step_cost_eq (prev cur : Chord) (ns : List Note) (a : List Nat)
    (hlen_a : a.length = (unfixedIdx cur).length) (hag : agreesOffClobber cur ns) :
    (calculateVoiceLeadingCost prev
        { cur with notes := setVoicesAt ns (unfixedIdx cur) (a.map some) } a).1
      = costOf prev cur a := by
  simp only [calculateVoiceLeadingCost, costOf]
  rw [clobbered_state_eq cur ns a hlen_a hag]

theorem agrees_refl (cur : Chord) : agreesOffClobber cur cur.notes :=
  ⟨rfl, fun _ => rfl, fun _ _ _ => rfl⟩

theorem agrees_step (cur : Chord) (ns : List Note) (a : List Nat)
    (hlen_a : a.length = (unfixedIdx cur).length) (hag : agreesOffClobber cur ns) :
    agreesOffClobber cur
      (setVoicesAt (writeFirstVoices (setVoicesAt ns (unfixedIdx cur) (a.map some)) a)
        (unfixedIdx cur) ((unfixedIdx cur).map (fun _ => none))) := by
  obtain ⟨hlen, hbody, hvoice⟩ := hag
  refine ⟨?_, ?_, ?_⟩
  · rw [length_setVoicesAt, length_writeFirstVoices, length_setVoicesAt, hlen]
  · intro i
    rw [noteBody_getD_setVoicesAt, noteBody_getD_writeFirstVoices, noteBody_getD_setVoicesAt]
    exact hbody i
  · intro i hmem hk
    rw [getD_setVoicesAt_not_mem _ _ _ _ _ hmem,
      getD_writeFirstVoices_ge _ _ _ _ (by rwa [hlen_a]),
      getD_setVoicesAt_not_mem _ _ _ _ _ hmem]
    exact hvoice i hmem hk

theorem searchStep_proj (prev cur : Chord) (ns : List Note) (b : Option (List Nat))
    (lo : Option Nat) (a : List Nat)
    (hlen_a : a.length = (unfixedIdx cur).length) (hag : agreesOffClobber cur ns) :
    (searchStep prev cur (ns, b, lo) a).2 = selStep (costOf prev cur) (b, lo) a ∧
    agreesOffClobber cur (searchStep prev cur (ns, b, lo) a).1 := by
  have hc := step_cost_eq prev cur ns a hlen_a hag
  constructor
  · simp only [searchStep, selStep, hc]
    split_ifs <;> rfl
  · simp only [searchStep, calculateVoiceLeadingCost]
    exact agrees_step cur ns a hlen_a hag

theorem search_fold (prev cur : Chord) :
    ∀ (A : List (List Nat)) (ns : List Note) (b : Option (List Nat)) (lo : Option Nat),
      (∀ a ∈ A, a.length = (unfixedIdx cur).length) → agreesOffClobber cur ns →
      (A.foldl (searchStep prev cur) (ns, b, lo)).2 =
          A.foldl (selStep (costOf prev cur)) (b, lo) ∧
      agreesOffClobber cur (A.foldl (searchStep prev cur) (ns, b, lo)).1 := by
  intro A
  induction A with
  | nil => intro ns b lo _ hag; exact ⟨rfl, hag⟩
  | cons a rest ih =>
    intro ns b lo hlen hag
    simp only [List.foldl_cons]
    have hsp := searchStep_proj prev cur ns b lo a (hlen a (List.mem_cons_self _ _)) hag
    have hpair : searchStep prev cur (ns, b, lo) a =
        ((searchStep prev cur (ns, b, lo) a).1, selStep (costOf prev cur) (b, lo) a) := by
      rw [← hsp.1]
    rw [hpair]
    exact ih _ _ _ (fun x hx => hlen x (List.mem_cons_of_mem _ hx)) hsp.2

end PianoRoll
namespace PianoRoll

theorem selStep_fold_some (f : List Nat → Nat) :
    ∀ (L : List (List Nat)) (b : List Nat) (c : Nat),
      ∃ bb cc, L.foldl (selStep f) (some b, some c) = (some bb, some cc) ∧
        cc ≤ c ∧ (∀ x ∈ L, cc ≤ f x) ∧
        ((bb = b ∧ cc = c) ∨
          (∃ j, j < L.length ∧ bb = L.getD j [] ∧ cc = f bb ∧ cc < c ∧
            ∀ i, i < j → cc < f (L.getD i []))) := by
  intro L
  induction L with
  | nil =>
    intro b c
    exact ⟨b, c, rfl, le_refl _, by simp, Or.inl ⟨rfl, rfl⟩⟩
  | cons a rest ih =>
    intro b c
    by_cases hlt : f a < c
    · have hsel : selStep f (some b, some c) a = (some a, some (f a)) := by
        simp [selStep, hlt]
      rw [List.foldl_cons, hsel]
      obtain ⟨bb, cc, heq, hle, hall, hwin⟩ := ih a (f a)
      refine ⟨bb, cc, heq, le_trans hle (le_of_lt hlt), ?_, ?_⟩
      · intro x hx
        rcases List.mem_cons.mp hx with hx | hx
        · exact hx ▸ hle
        · exact hall x hx
      · right
        rcases hwin with ⟨hbb, hcc⟩ | ⟨j, hj, hbb, hcc, hlt2, hfirst⟩
        · exact ⟨0, by simp, by simpa using hbb, by rw [hcc, hbb], hcc ▸ hlt,
            fun i hi => absurd hi (Nat.not_lt_zero i)⟩
        · refine ⟨j + 1, by simpa using hj, by simpa using hbb, hcc, lt_trans hlt2 hlt, ?_⟩
          intro i hi
          cases i with
          | zero => simpa using hlt2
          | succ m => exact hfirst m (by omega)
    · have hsel : selStep f (some b, some c) a = (some b, some c) := by
        simp [selStep, hlt]
      rw [List.foldl_cons, hsel]
      obtain ⟨bb, cc, heq, hle, hall, hwin⟩ := ih b c
      have hca : c ≤ f a := le_of_not_lt hlt
      refine ⟨bb, cc, heq, hle, ?_, ?_⟩
      · intro x hx
        rcases List.mem_cons.mp hx with hx | hx
        · exact hx ▸ le_trans hle hca
        · exact hall x hx
      · rcases hwin with h | ⟨j, hj, hbb, hcc, hlt2, hfirst⟩
        · exact Or.inl h
        · refine Or.inr ⟨j + 1, by simpa using hj, by simpa using hbb, hcc, hlt2, ?_⟩
          intro i hi
          cases i with
          | zero => simpa using lt_of_lt_of_le hlt2 hca
          | succ m => exact hfirst m (by omega)

theorem selStep_fold_top (f : List Nat → Nat) (L : List (List Nat)) (hL : L ≠ []) :
    ∃ bb cc, L.foldl (selStep f) (none, none) = (some bb, some cc) ∧
      ∃ j, j < L.length ∧ bb = L.getD j [] ∧ cc = f bb ∧
        (∀ x ∈ L, cc ≤ f x) ∧ (∀ i, i < j → cc < f (L.getD i [])) := by
  cases L with
  | nil => exact absurd rfl hL
  | cons a rest =>
    have hsel : selStep f (none, none) a = (some a, some (f a)) := by simp [selStep]
    rw [List.foldl_cons, hsel]
    obtain ⟨bb, cc, heq, hle, hall, hwin⟩ := selStep_fold_some f rest a (f a)
    refine ⟨bb, cc, heq, ?_⟩
    rcases hwin with ⟨hbb, hcc⟩ | ⟨j, hj, hbb, hcc, hlt, hfirst⟩
    · refine ⟨0, by simp, by simpa using hbb, by rw [hcc, hbb], ?_,
        fun i hi => absurd hi (Nat.not_lt_zero i)⟩
      intro x hx
      rcases List.mem_cons.mp hx with hx | hx
      · rw [hcc, hx]
      · exact hcc ▸ hall x hx
    · refine ⟨j + 1, by simpa using hj, by simpa using hbb, hcc, ?_, ?_⟩
      · intro x hx
        rcases List.mem_cons.mp hx with hx | hx
        · exact hx ▸ hle
        · exact hall x hx
      · intro i hi
        cases i with
        | zero => simpa using hlt
        | succ m => exact hfirst m (by omega)

theorem map_getD_setVoicesAt (ns : List Note) (u : List Nat) (vs : List (Option Nat))
    (hnd : u.Nodup) (hlen : vs.length = u.length) (hbound : ∀ i ∈ u, i < ns.length) :
    u.map (fun i => ((setVoicesAt ns u vs).getD i default).voice) = vs := by
  apply List.ext_get
  · simp [hlen]
  · intro t h1 h2
    rw [List.get_eq_getElem, List.get_eq_getElem, List.getElem_map]
    have ht : t < u.length := by simpa using h1
    have htv : t < vs.length := h2
    have hui : u[t] = u.getD t 0 := (List.getD_eq_getElem u 0 ht).symm
    rw [hui]
    rcases getD_setVoicesAt_mem ns u vs t default hnd ht htv with he | he
    · rw [he]
      exact (List.getD_eq_getElem vs none htv)
    · exfalso
      apply he
      apply hbound
      rw [← hui]
      exact List.getElem_mem ht

end PianoRoll
namespace PianoRoll

/-- C2: the step optimizer enumerates exactly the ordered assignments of
available voices to the unfixed notes, and commits the first one attaining
the minimal cost of the cost model. -/
theorem optimizeChordVoicingSearch_spec (prev cur : Chord) (nv : Nat)
    (hlen : cur.notes.length ≤ nv) (hne : unfixedIdx cur ≠ []) :
    (∀ b : List Nat, b ∈ generateVoiceAssignments cur nv ↔
        (b.length = (unfixedIdx cur).length ∧ b.Nodup ∧
          ∀ v ∈ b, v ∈ availableVoices cur nv)) ∧
    ∃ j, j < (generateVoiceAssignments cur nv).length ∧
      ((unfixedIdx cur).map (fun i =>
          ((optimizeChordVoicingSearch prev cur nv).notes.getD i default).voice)) =
        ((generateVoiceAssignments cur nv).getD j []).map some ∧
      (∀ b ∈ generateVoiceAssignments cur nv,
        costOf prev cur ((generateVoiceAssignments cur nv).getD j []) ≤ costOf prev cur b) ∧
      (∀ i, i < j →
        costOf prev cur ((generateVoiceAssignments cur nv).getD j []) <
          costOf prev cur ((generateVoiceAssignments cur nv).getD i [])) := by
  refine ⟨fun b => mem_assignments_iff cur nv b, ?_⟩
  have hAne : generateVoiceAssignments cur nv ≠ [] := assignments_ne_nil cur nv hlen
  have hAlen : ∀ a ∈ generateVoiceAssignments cur nv, a.length = (unfixedIdx cur).length :=
    fun a ha => ((mem_assignments_iff cur nv a).mp ha).1
  obtain ⟨hproj, hagfin⟩ := search_fold prev cur (generateVoiceAssignments cur nv)
    cur.notes none none hAlen (agrees_refl cur)
  obtain ⟨bb, cc, heq, j, hj, hbb, hcc, hmin, hfirst⟩ :=
    selStep_fold_top (costOf prev cur) (generateVoiceAssignments cur nv) hAne
  have h21 : ((generateVoiceAssignments cur nv).foldl (searchStep prev cur)
      (cur.notes, none, none)).2.1 = some bb := by
    rw [hproj, heq]
  have hsearch : (optimizeChordVoicingSearch prev cur nv).notes =
      setVoicesAt ((generateVoiceAssignments cur nv).foldl (searchStep prev cur)
        (cur.notes, none, none)).1 (unfixedIdx cur) (bb.map some) := by
    simp only [optimizeChordVoicingSearch]
    rw [h21]
  have hbbA : bb ∈ generateVoiceAssignments cur nv := by
    rw [hbb, List.getD_eq_getElem _ _ hj]
    exact List.getElem_mem hj
  have hbblen : bb.length = (unfixedIdx cur).length := hAlen bb hbbA
  refine ⟨j, hj, ?_, ?_, ?_⟩
  · rw [hsearch]
    rw [map_getD_setVoicesAt _ _ _ (unfixedIdx_nodup cur)
      (by rw [List.length_map, hbblen])
      (fun i hi => by rw [hagfin.1]; exact unfixedIdx_lt cur i hi)]
    rw [hbb]
  · intro b hb
    rw [← hbb, ← hcc]
    exact hmin b hb
  · intro i hi
    rw [← hbb, ← hcc]
    exact hfirst i hi

end PianoRoll
namespace PianoRoll

/-! ## Cost-model refinement lemmas -/

theorem countP_congr_bool {α : Type} {p q : α → Bool} {l : List α}
    (h : ∀ a ∈ l, p a = q a) : l.countP p = l.countP q :=
  List.countP_congr (fun a ha => by rw [h a ha])

theorem pairCountP_congr_pairwise {R : Note → Note → Prop} (f g : Note → Note → Bool)
    (l : List Note) (hpw : List.Pairwise R l) (hfg : ∀ a b, R a b → f a b = g a b) :
    pairCountP f l = pairCountP g l := by
  induction l with
  | nil => rfl
  | cons x xs ih =>
    simp only [pairCountP]
    have hx := (List.pairwise_cons.mp hpw).1
    rw [countP_congr_bool (fun b hb => hfg x b (hx b hb)),
      ih (List.pairwise_cons.mp hpw).2]

theorem spacing_count (D : Note → Note → Bool) (l : List Note)
    (hpw : List.Pairwise (fun a b => voiceOr0 a < voiceOr0 b) l) :
    ∀ (s t : List Note), l = t ++ s →
      pairCountP (fun a b =>
        ((voiceOr0 a < voiceOr0 b &&
            l.all (fun c => !(voiceOr0 a < voiceOr0 c && voiceOr0 c < voiceOr0 b))) &&
          D a b) ||
        ((voiceOr0 b < voiceOr0 a &&
            l.all (fun c => !(voiceOr0 b < voiceOr0 c && voiceOr0 c < voiceOr0 a))) &&
          D b a)) s
      = adjCountP D s := by
  intro s
  induction s with
  | nil => intro t _; rfl
  | cons x ys ih =>
    intro t hl
    cases ys with
    | nil => simp [pairCountP, adjCountP]
    | cons y zs =>
      simp only [pairCountP, adjCountP]
      have htail := ih (t ++ [x]) (by rw [hl]; simp)
      simp only [pairCountP] at htail
      rw [htail]
      have hsplit := List.pairwise_append.mp (hl ▸ hpw)
      have hx : ∀ b ∈ y :: zs, voiceOr0 x < voiceOr0 b :=
        (List.pairwise_cons.mp hsplit.2.1).1
      have hy : ∀ b ∈ zs, voiceOr0 y < voiceOr0 b :=
        (List.pairwise_cons.mp (List.pairwise_cons.mp hsplit.2.1).2).1
      have hT : ∀ c ∈ t, voiceOr0 c < voiceOr0 x :=
        fun c hc => hsplit.2.2 c hc x (by simp)
      have hxy : voiceOr0 x < voiceOr0 y := hx y (by simp)
      have hymem : y ∈ l := by rw [hl]; simp
      -- no element of l sits strictly between x and y
      have hadj : l.all (fun c => !(voiceOr0 x < voiceOr0 c && voiceOr0 c < voiceOr0 y))
          = true := by
        rw [List.all_eq_true]
        intro c hc
        rw [hl] at hc
        rcases List.mem_append.mp hc with hc | hc
        · have := hT c hc
          simp only [Bool.not_eq_true']
          rw [Bool.and_eq_false_iff]
          left
          simpa using Nat.not_lt.mpr (le_of_lt this)
        · rcases List.mem_cons.mp hc with hc | hc
          · subst hc
            simp
          · rcases List.mem_cons.mp hc with hc | hc
            · subst hc
              simp
            · have := hy c hc
              simp only [Bool.not_eq_true']
              rw [Bool.and_eq_false_iff]
              right
              simpa using Nat.not_lt.mpr (le_of_lt this)
      -- the head count is exactly the adjacent-pair check
      have hhead : (y :: zs).countP (fun b =>
          ((voiceOr0 x < voiceOr0 b &&
              l.all (fun c => !(voiceOr0 x < voiceOr0 c && voiceOr0 c < voiceOr0 b))) &&
            D x b) ||
          ((voiceOr0 b < voiceOr0 x &&
              l.all (fun c => !(voiceOr0 b < voiceOr0 c && voiceOr0 c < voiceOr0 x))) &&
            D b x)) = (if D x y then 1 else 0) := by
        rw [List.countP_cons]
        have hyx : ¬ voiceOr0 y < voiceOr0 x := Nat.not_lt.mpr (le_of_lt hxy)
        have hzero : zs.countP (fun b =>
            ((voiceOr0 x < voiceOr0 b &&
                l.all (fun c => !(voiceOr0 x < voiceOr0 c && voiceOr0 c < voiceOr0 b))) &&
              D x b) ||
            ((voiceOr0 b < voiceOr0 x &&
                l.all (fun c => !(voiceOr0 b < voiceOr0 c && voiceOr0 c < voiceOr0 x))) &&
              D b x)) = 0 := by
          rw [List.countP_eq_zero]
          intro b hb
          have hxb : voiceOr0 x < voiceOr0 b := hx b (List.mem_cons_of_mem _ hb)
          have hbetween : l.all
              (fun c => !(voiceOr0 x < voiceOr0 c && voiceOr0 c < voiceOr0 b)) = false := by
            rw [List.all_eq_false]
            refine ⟨y, hymem, ?_⟩
            simp [hxy, hy b hb]
          have hbx : ¬ voiceOr0 b < voiceOr0 x := Nat.not_lt.mpr (le_of_lt hxb)
          have h1 : decide (voiceOr0 b < voiceOr0 x) = false := decide_eq_false hbx
          rw [hbetween, h1]
          simp
        rw [hzero]
        have h2 : decide (voiceOr0 x < voiceOr0 y) = true := decide_eq_true hxy
        have h3 : decide (voiceOr0 y < voiceOr0 x) = false := decide_eq_false hyx
        rw [hadj, h2, h3]
        simp
      rw [hhead]

end PianoRoll
namespace PianoRoll

/-- C3 (amended): with pairwise-distinct voices in the assigned candidate
chord, the cost model equals the claimed four-term sum, with the spacing
term read directionally. -/
theorem cost_eq_claimAmended (prev cur : Chord) (va : List Nat)
    (h : ((writeFirstVoices cur.notes va).map voiceOr0).Nodup) :
    (calculateVoiceLeadingCost prev cur va).1 = claimCostC3Amended prev cur va := by
  have hsorted := sortByVoice_sorted (writeFirstVoices cur.notes va)
  have hstrict := sortByVoice_strict _ h
  have hcross : pairCountP (fun a b =>
      (voiceOr0 a < voiceOr0 b && decide (a.pitch < b.pitch)) ||
      (voiceOr0 b < voiceOr0 a && decide (b.pitch < a.pitch)))
      (sortByVoice (writeFirstVoices cur.notes va)) =
    pairCountP (fun a b => voiceOr0 a < voiceOr0 b && decide (a.pitch < b.pitch))
      (sortByVoice (writeFirstVoices cur.notes va)) := by
    apply pairCountP_congr_pairwise _ _ _ hsorted
    intro a b hR
    have hba : decide (voiceOr0 b < voiceOr0 a) = false :=
      decide_eq_false (Nat.not_lt.mpr hR)
    rw [hba]
    simp
  have hspac := spacing_count (fun a b => decide (a.pitch - b.pitch > 12))
    (sortByVoice (writeFirstVoices cur.notes va)) hstrict
    (sortByVoice (writeFirstVoices cur.notes va)) [] rfl
  simp only [calculateVoiceLeadingCost, costFromState, claimCostC3Amended]
  rw [hcross, hspac]

end PianoRoll
namespace PianoRoll

/-! ## Frame (shape preservation) lemmas -/

theorem foldl_modifyAt_map_eq {β γ : Type} (g : Note → β) (ps : List γ)
    (idx : γ → Nat) (f : γ → Note → Note) (hf : ∀ p n, g (f p n) = g n) :
    ∀ ns : List Note,
      ((ps.foldl (fun acc p => modifyAt acc (idx p) (f p)) ns).map g) = ns.map g := by
  induction ps with
  | nil => intro ns; rfl
  | cons p rest ih =>
    intro ns
    simp only [List.foldl_cons]
    rw [ih, modifyAt_map_eq (f p) g (hf p)]

theorem map_setVoicesAt_eq {β : Type} (g : Note → β)
    (hg : ∀ (n : Note) (v : Option Nat), g { n with voice := v } = g n)
    (ns : List Note) (idxs : List Nat) (vs : List (Option Nat)) :
    (setVoicesAt ns idxs vs).map g = ns.map g :=
  foldl_modifyAt_map_eq g (idxs.zip vs) (fun iv => iv.1)
    (fun iv n => { n with voice := iv.2 }) (fun iv n => hg n iv.2) ns

theorem map_writeFirstVoices_eq {β : Type} (g : Note → β)
    (hg : ∀ (n : Note) (v : Option Nat), g { n with voice := v } = g n) :
    ∀ (ns : List Note) (va : List Nat), (writeFirstVoices ns va).map g = ns.map g := by
  intro ns
  induction ns with
  | nil => intro va; cases va <;> rfl
  | cons n nt ih =>
    intro va
    cases va with
    | nil => rfl
    | cons v vt =>
      simp only [writeFirstVoices, List.map_cons, ih vt]
      rw [hg n (some v)]

theorem map_assignFirst_eq {β : Type} (g : Note → β)
    (hg : ∀ (n : Note) (v : Option Nat), g { n with voice := v } = g n)
    (c : Chord) (nv : Nat) :
    ((assignVoicesToFirstChord c nv).notes).map g = c.notes.map g := by
  simp only [assignVoicesToFirstChord]
  exact foldl_modifyAt_map_eq g _ (fun ti : Nat × Nat => ti.2) _
    (fun ti n => hg n _) c.notes

theorem map_searchFold_eq {β : Type} (g : Note → β)
    (hg : ∀ (n : Note) (v : Option Nat), g { n with voice := v } = g n)
    (prev cur : Chord) :
    ∀ (A : List (List Nat)) (st : List Note × Option (List Nat) × Option Nat),
      ((A.foldl (searchStep prev cur) st).1).map g = st.1.map g := by
  intro A
  induction A with
  | nil => intro st; rfl
  | cons a rest ih =>
    intro st
    simp only [List.foldl_cons]
    rw [ih]
    simp only [searchStep, calculateVoiceLeadingCost]
    rw [map_setVoicesAt_eq g hg, map_writeFirstVoices_eq g hg, map_setVoicesAt_eq g hg]

theorem map_search_eq {β : Type} (g : Note → β)
    (hg : ∀ (n : Note) (v : Option Nat), g { n with voice := v } = g n)
    (prev cur : Chord) (nv : Nat) :
    ((optimizeChordVoicingSearch prev cur nv).notes).map g = cur.notes.map g := by
  simp only [optimizeChordVoicingSearch]
  cases hout : ((generateVoiceAssignments cur nv).foldl (searchStep prev cur)
      (cur.notes, none, none)).2.1 with
  | none =>
    simp only [hout]
    exact map_searchFold_eq g hg prev cur _ _
  | some best =>
    simp only [hout]
    rw [map_setVoicesAt_eq g hg]
    exact map_searchFold_eq g hg prev cur _ _

theorem shape_adjustOctaves (c : Chord) :
    List.Perm (((adjustOctaves c).notes).map noteShape) (c.notes.map noteShape) := by
  simp only [adjustOctaves]
  split_ifs with h1
  · rw [walkUp_map_eq noteShape (fun n p => rfl)]
    rw [modifyAt_map_eq
      (fun n => { n with pitch := octShiftDown n.pitch (minPitchOf (sortByVoice c.notes)) })
      noteShape (fun n => rfl)]
    exact (sortByVoice_perm c.notes).map noteShape
  · exact (sortByVoice_perm c.notes).map noteShape

theorem shape_optimizeChordVoicing (prev cur : Chord) (nv : Nat) :
    List.Perm (((optimizeChordVoicing prev cur nv).notes).map noteShape)
      (cur.notes.map noteShape) := by
  rw [optimizeChordVoicing]
  split_ifs with h1
  · exact List.Perm.refl _
  · refine (shape_adjustOctaves _).trans ?_
    rw [map_search_eq noteShape (fun n v => rfl) prev cur nv]

theorem shape_processChords (nv : Nat) :
    ∀ (cs : List Chord) (prev : Chord),
      List.Perm ((flattenChordsToNotes (processChords nv prev cs)).map noteShape)
        ((flattenChordsToNotes cs).map noteShape) := by
  intro cs
  induction cs with
  | nil => intro prev; exact List.Perm.refl _
  | cons c rest ih =>
    intro prev
    simp only [processChords, flattenChordsToNotes, List.flatMap_cons, List.map_append]
    exact (shape_optimizeChordVoicing prev c nv).append (ih _)

theorem shape_balancer (cs : List Chord) :
    ((flattenChordsToNotes (adjustHarmonyOctaveRelativeToMelody cs)).map noteShape) =
      (flattenChordsToNotes cs).map noteShape := by
  simp only [adjustHarmonyOctaveRelativeToMelody]
  split_ifs with h1 h2 h3
  · rfl
  · rw [flatten_map_noteMap, List.map_map]
    apply List.map_congr_left
    intro n _
    simp only [Function.comp]
    by_cases hc : (n.voice.isSome && n.voice != some 0) = true <;> simp [hc, noteShape]
  · rfl
  · rfl

end PianoRoll
namespace PianoRoll

theorem flatten_buildChords (m all : List Note) :
    ∀ ps : List Int, flattenChordsToNotes (buildChords m all ps) =
      ps.flatMap (fun p => (all.filter (fun n => n.position == p)).map (tagMelody m)) := by
  intro ps
  induction ps with
  | nil => rfl
  | cons p rest ih =>
    simp only [buildChords, flattenChordsToNotes, List.flatMap_cons, chordAt] at ih ⊢
    rw [ih]

theorem flatMap_filter_perm :
    ∀ (ps : List Int) (L : List Note), ps.Nodup → (∀ n ∈ L, n.position ∈ ps) →
      List.Perm (ps.flatMap (fun p => L.filter (fun n => n.position == p))) L := by
  intro ps
  induction ps with
  | nil =>
    intro L _ hmem
    cases L with
    | nil => exact List.Perm.refl _
    | cons x xs => exact absurd (hmem x (List.mem_cons_self _ _)) (List.not_mem_nil _)
  | cons p rest ih =>
    intro L hnd hmem
    simp only [List.flatMap_cons]
    have hrest : rest.flatMap (fun p2 => L.filter (fun n => n.position == p2)) =
        rest.flatMap (fun p2 =>
          (L.filter (fun n => !(n.position == p))).filter (fun n => n.position == p2)) := by
      apply flatMap_congr
      intro p2 hp2
      have hnep : p2 ≠ p := by
        intro he
        exact (List.nodup_cons.mp hnd).1 (he ▸ hp2)
      rw [List.filter_filter]
      apply List.filter_congr
      intro n _
      by_cases hnp : n.position = p2
      · have hnotp : ¬ n.position = p := fun he => hnep (by rw [← hnp, he])
        simp [hnp, hnotp, hnep]
      · simp [hnp]
    rw [hrest]
    have hih := ih (L.filter (fun n => !(n.position == p))) (List.nodup_cons.mp hnd).2 ?_
    · exact ((List.Perm.refl _).append hih).trans (List.filter_append_perm _ L)
    · intro n hn
      have h1 := List.mem_filter.mp hn
      have h2 := hmem n h1.1
      rcases List.mem_cons.mp h2 with h3 | h3
      · exfalso
        have h4 := h1.2
        simp [h3] at h4
      · exact h3

theorem identifyChords_ne_nil (m h : List Note) (hne : m ++ h ≠ []) :
    identifyChords m h ≠ [] := by
  rw [identifyChords]
  cases hp : (((m ++ h).map (·.position)).dedup).insertionSort (· ≤ ·) with
  | nil =>
    exfalso
    have hlen := (List.perm_insertionSort (· ≤ ·) ((m ++ h).map (·.position)).dedup).length_eq
    rw [hp] at hlen
    have hd : ((m ++ h).map (·.position)).dedup = [] := List.length_eq_zero.mp hlen.symm
    have hmapnil : (m ++ h).map (·.position) = [] := by
      cases hmh : (m ++ h).map (·.position) with
      | nil => rfl
      | cons a l2 =>
        exfalso
        have ha : a ∈ ((m ++ h).map (·.position)).dedup := by
          rw [List.mem_dedup, hmh]
          simp
        rw [hd] at ha
        exact List.not_mem_nil a ha
    exact hne (List.map_eq_nil_iff.mp hmapnil)
  | cons p rest => simp [buildChords]

end PianoRoll
namespace PianoRoll

/-- C10: the output has one note per input note, with positions and
durations preserved as a multiset; only pitch and voice are written. -/
theorem optimizeVoiceLeading_frame (melody harmony : List Note)
    (hne : melody ++ harmony ≠ []) :
    ∃ out, optimizeVoiceLeading melody harmony = some out ∧
      out.length = melody.length + harmony.length ∧
      List.Perm (out.map noteShape) ((melody ++ harmony).map noteShape) := by
  have hch := identifyChords_ne_nil melody harmony hne
  cases hc : identifyChords melody harmony with
  | nil => exact absurd hc hch
  | cons c0 rest =>
    have hval : optimizeVoiceLeading melody harmony =
        some (flattenChordsToNotes (adjustHarmonyOctaveRelativeToMelody
          (assignVoicesToFirstChord c0 (determineVoiceCount (c0 :: rest)) ::
            processChords (determineVoiceCount (c0 :: rest))
              (assignVoicesToFirstChord c0 (determineVoiceCount (c0 :: rest))) rest))) := by
      rw [optimizeVoiceLeading, hc]
    have hperm : List.Perm ((flattenChordsToNotes (adjustHarmonyOctaveRelativeToMelody
        (assignVoicesToFirstChord c0 (determineVoiceCount (c0 :: rest)) ::
          processChords (determineVoiceCount (c0 :: rest))
            (assignVoicesToFirstChord c0 (determineVoiceCount (c0 :: rest))) rest))).map
          noteShape)
        ((melody ++ harmony).map noteShape) := by
      rw [shape_balancer]
      have h1 : List.Perm ((flattenChordsToNotes
          (assignVoicesToFirstChord c0 (determineVoiceCount (c0 :: rest)) ::
            processChords (determineVoiceCount (c0 :: rest))
              (assignVoicesToFirstChord c0 (determineVoiceCount (c0 :: rest))) rest)).map
            noteShape)
          ((flattenChordsToNotes (c0 :: rest)).map noteShape) := by
        simp only [flattenChordsToNotes, List.flatMap_cons, List.map_append]
        refine List.Perm.append ?_ (shape_processChords _ rest _)
        rw [map_assignFirst_eq noteShape (fun n v => rfl)]
      refine h1.trans ?_
      rw [show (c0 :: rest) = identifyChords melody harmony from hc.symm]
      rw [identifyChords, flatten_buildChords]
      have h3 : ∀ p : Int, ((melody ++ harmony).filter
            (fun n => n.position == p)).map (tagMelody melody) =
          ((melody ++ harmony).map (tagMelody melody)).filter (fun n => n.position == p) := by
        intro p
        rw [List.filter_map]
        congr 1
        apply List.filter_congr
        intro n _
        by_cases hc2 : (melody.any fun m3 => m3.pitch == n.pitch &&
            m3.position == n.position) = true
        · simp [tagMelody, hc2]
        · simp [tagMelody, hc2]
      rw [flatMap_congr _ _ _ (fun p _ => h3 p)]
      have hndps : ((((melody ++ harmony).map (·.position)).dedup).insertionSort
          (· ≤ ·)).Nodup :=
        (List.perm_insertionSort _ _).nodup_iff.mpr (List.nodup_dedup _)
      have hcover : ∀ n ∈ (melody ++ harmony).map (tagMelody melody),
          n.position ∈ (((melody ++ harmony).map (·.position)).dedup).insertionSort (· ≤ ·) := by
        intro n hn
        obtain ⟨n0, hn0, rfl⟩ := List.mem_map.mp hn
        have hpos : (tagMelody melody n0).position = n0.position := by
          by_cases hc2 : (melody.any fun m3 => m3.pitch == n0.pitch &&
              m3.position == n0.position) = true
          · simp [tagMelody, hc2]
          · simp [tagMelody, hc2]
        rw [hpos]
        rw [(List.perm_insertionSort _ _).mem_iff, List.mem_dedup]
        exact List.mem_map_of_mem _ hn0
      have h5 := flatMap_filter_perm
        ((((melody ++ harmony).map (·.position)).dedup).insertionSort (· ≤ ·))
        ((melody ++ harmony).map (tagMelody melody)) hndps hcover
      refine (h5.map noteShape).trans ?_
      rw [List.map_map]
      have h6 : ∀ n ∈ melody ++ harmony, (noteShape ∘ tagMelody melody) n = noteShape n := by
        intro n _
        by_cases hc2 : (melody.any fun m3 => m3.pitch == n.pitch &&
            m3.position == n.position) = true
        · simp [tagMelody, hc2, noteShape, Function.comp]
        · simp [tagMelody, hc2, noteShape, Function.comp]
      rw [List.map_congr_left h6]
    refine ⟨_, hval, ?_, hperm⟩
    have hlen := hperm.length_eq
    simp only [List.length_map, List.length_append] at hlen
    exact hlen

end PianoRoll
namespace PianoRoll

/-! ## Claim evaluations: code bugs, counterexamples and witnesses -/

/-- C1: melody invariance fails on the code.  On this input the cost
evaluation writes the candidate voices into the first notes of the chord
(aliased with the melody note), so the melody note (74, position 8) leaves
`optimizeVoiceLeading` carrying voice 1, not voice 0. -/
theorem melody_invariance_violated :
    optimizeVoiceLeading [⟨72, 0, 8, none⟩, ⟨74, 8, 8, none⟩]
        [⟨67, 0, 8, none⟩, ⟨69, 8, 8, none⟩] =
      some [⟨72, 0, 8, some 0⟩, ⟨67, 0, 8, some 1⟩, ⟨74, 8, 8, some 1⟩,
        ⟨69, 8, 8, some 1⟩] ∧
    specMelodyInvariance [⟨72, 0, 8, none⟩, ⟨74, 8, 8, none⟩]
      [⟨72, 0, 8, some 0⟩, ⟨67, 0, 8, some 1⟩, ⟨74, 8, 8, some 1⟩,
        ⟨69, 8, 8, some 1⟩] = false :=
  ⟨by decide, by decide⟩

/-- C4: on empty input the source dereferences `chords[0]` (`undefined`)
and throws, modelled as `none`; it does not return the input unchanged. -/
theorem optimizeVoiceLeading_empty_throws : optimizeVoiceLeading [] [] = none := by decide

/-- C7: voice uniqueness fails on the code.  On the C1 input the chord at
position 8 ends with two notes carrying voice 1 (the melody note clobbered
by the cost evaluation, and the harmony note committed to voice 1). -/
theorem voice_uniqueness_violated :
    optimizeVoiceLeading [⟨72, 0, 8, none⟩, ⟨74, 8, 8, none⟩]
        [⟨67, 0, 8, none⟩, ⟨69, 8, 8, none⟩] =
      some [⟨72, 0, 8, some 0⟩, ⟨67, 0, 8, some 1⟩, ⟨74, 8, 8, some 1⟩,
        ⟨69, 8, 8, some 1⟩] ∧
    specVoiceUnique [⟨72, 0, 8, some 0⟩, ⟨67, 0, 8, some 1⟩, ⟨74, 8, 8, some 1⟩,
      ⟨69, 8, 8, some 1⟩] = false :=
  ⟨by decide, by decide⟩

/-- C3 counterexample: the cost model returns 1000 on this input, while the
claimed four-term sum (spacing read as an absolute difference) gives 1100:
the code only penalizes spacing when the lower-voice note is more than an
octave ABOVE the next voice, not when the chord is inverted. -/
theorem cost_model_ne_claimed_sum :
    (calculateVoiceLeadingCost ⟨0, [⟨30, 0, 8, some 5⟩], none⟩
        ⟨8, [⟨50, 8, 8, none⟩, ⟨70, 8, 8, none⟩], none⟩ [0, 1]).1 = 1000 ∧
    claimCostC3 ⟨0, [⟨30, 0, 8, some 5⟩], none⟩
        ⟨8, [⟨50, 8, 8, none⟩, ⟨70, 8, 8, none⟩], none⟩ [0, 1] = 1100 ∧
    (calculateVoiceLeadingCost ⟨0, [⟨30, 0, 8, some 5⟩], none⟩
        ⟨8, [⟨50, 8, 8, none⟩, ⟨70, 8, 8, none⟩], none⟩ [0, 1]).1 ≠
      claimCostC3 ⟨0, [⟨30, 0, 8, some 5⟩], none⟩
        ⟨8, [⟨50, 8, 8, none⟩, ⟨70, 8, 8, none⟩], none⟩ [0, 1] :=
  ⟨by decide, by decide, by decide⟩

/-- C3 witness for the amended cost formula. -/
theorem cost_eq_claimAmended_witness :
    ((writeFirstVoices exCur.notes [0, 1]).map voiceOr0).Nodup ∧
    (calculateVoiceLeadingCost exPrev exCur [0, 1]).1 =
      claimCostC3Amended exPrev exCur [0, 1] :=
  ⟨by decide, cost_eq_claimAmended exPrev exCur [0, 1] (by decide)⟩

/-- C5 counterexample: the first chord is never octave-normalized, so on
this input the highest-voice (bass) note keeps pitch 60 while the melody
sits below it at pitch 50 in the final output. -/
theorem bass_lowest_fails_in_output :
    optimizeVoiceLeading [⟨50, 0, 8, none⟩] [⟨60, 0, 8, none⟩, ⟨70, 0, 8, none⟩] =
      some [⟨50, 0, 8, some 0⟩, ⟨60, 0, 8, some 2⟩, ⟨70, 0, 8, some 1⟩] ∧
    specBassLowest [⟨50, 0, 8, some 0⟩, ⟨60, 0, 8, some 2⟩, ⟨70, 0, 8, some 1⟩] = false :=
  ⟨by decide, by decide⟩

/-- C5 witness for the amended bass-lowest statement. -/
theorem adjustOctaves_bass_lowest_witness :
    (∀ n ∈ exChord.notes, n.voice.isSome) ∧ (exChord.notes.map voiceOr0).Nodup ∧
    (∀ a ∈ (adjustOctaves exChord).notes,
      (∀ c ∈ (adjustOctaves exChord).notes, voiceOr0 c ≤ voiceOr0 a) →
      ∀ b ∈ (adjustOctaves exChord).notes, a.pitch ≤ b.pitch) :=
  ⟨by decide, by decide, adjustOctaves_bass_lowest exChord (by decide) (by decide)⟩

/-- C6 counterexample: the octave normalizer's downward correction can land
exactly on the lower note's pitch, so the final output contains a chord
whose voices 0 and 1 share pitch 50 — pitch does not strictly decrease. -/
theorem strict_descent_fails_in_output :
    optimizeVoiceLeading [] [⟨10, 0, 8, none⟩, ⟨74, 8, 8, none⟩, ⟨50, 8, 8, none⟩] =
      some [⟨10, 0, 8, some 1⟩, ⟨50, 8, 8, some 0⟩, ⟨50, 8, 8, some 1⟩] ∧
    (specNoCrossingStrict [⟨10, 0, 8, some 1⟩, ⟨50, 8, 8, some 0⟩, ⟨50, 8, 8, some 1⟩] &&
      specOctaveSpan [⟨10, 0, 8, some 1⟩, ⟨50, 8, 8, some 0⟩, ⟨50, 8, 8, some 1⟩]) = false :=
  ⟨by decide, by decide⟩

/-- C6 witness for the amended ordering/span statement. -/
theorem adjustOctaves_voice_order_span_witness :
    (∀ n ∈ exChord.notes, n.voice.isSome) ∧ (exChord.notes.map voiceOr0).Nodup ∧
    List.Chain' (fun a b => voiceOr0 a < voiceOr0 b ∧ b.pitch ≤ a.pitch ∧ a.pitch - b.pitch ≤ 12)
      ((adjustOctaves exChord).notes) :=
  ⟨by decide, by decide, adjustOctaves_voice_order_span exChord (by decide) (by decide)⟩

/-- C2 witness: all the search properties at a concrete two-note chord. -/
theorem optimizeChordVoicingSearch_spec_witness :
    exCur.notes.length ≤ 2 ∧ unfixedIdx exCur ≠ [] ∧
    ((∀ b : List Nat, b ∈ generateVoiceAssignments exCur 2 ↔
        (b.length = (unfixedIdx exCur).length ∧ b.Nodup ∧
          ∀ v ∈ b, v ∈ availableVoices exCur 2)) ∧
      ∃ j, j < (generateVoiceAssignments exCur 2).length ∧
        ((unfixedIdx exCur).map (fun i =>
            ((optimizeChordVoicingSearch exPrev exCur 2).notes.getD i default).voice)) =
          ((generateVoiceAssignments exCur 2).getD j []).map some ∧
        (∀ b ∈ generateVoiceAssignments exCur 2,
          costOf exPrev exCur ((generateVoiceAssignments exCur 2).getD j []) ≤
            costOf exPrev exCur b) ∧
        (∀ i, i < j →
          costOf exPrev exCur ((generateVoiceAssignments exCur 2).getD j []) <
            costOf exPrev exCur ((generateVoiceAssignments exCur 2).getD i []))) :=
  ⟨by decide, by decide, optimizeChordVoicingSearch_spec exPrev exCur 2 (by decide) (by decide)⟩

/-- C8 witness at a 32-semitone gap (shift of two octaves). -/
theorem adjustHarmonyOctave_spec_witness :
    (∀ n ∈ flattenChordsToNotes exChords, n.voice.isSome) ∧
    ((flattenChordsToNotes exChords).filter (fun n => n.voice == some 0) ≠ []) ∧
    ((flattenChordsToNotes exChords).filter
      (fun n => n.voice.isSome && n.voice != some 0) ≠ []) ∧
    ((minPitchOf ((flattenChordsToNotes exChords).filter (fun n => n.voice == some 0)) -
        maxPitchOf ((flattenChordsToNotes exChords).filter
          (fun n => n.voice.isSome && n.voice != some 0)) ≤ 12 →
      adjustHarmonyOctaveRelativeToMelody exChords = exChords) ∧
    (12 < minPitchOf ((flattenChordsToNotes exChords).filter (fun n => n.voice == some 0)) -
        maxPitchOf ((flattenChordsToNotes exChords).filter
          (fun n => n.voice.isSome && n.voice != some 0)) →
      adjustHarmonyOctaveRelativeToMelody exChords =
        exChords.map (fun c => { c with notes := c.notes.map (fun n =>
          if n.voice.isSome && n.voice != some 0 then
            { n with pitch := n.pitch +
              (minPitchOf ((flattenChordsToNotes exChords).filter (fun n => n.voice == some 0)) -
                maxPitchOf ((flattenChordsToNotes exChords).filter
                  (fun n => n.voice.isSome && n.voice != some 0)) - 1) / 12 * 12 }
          else n) }) ∧
      minPitchOf ((flattenChordsToNotes (adjustHarmonyOctaveRelativeToMelody exChords)).filter
          (fun n => n.voice == some 0)) -
        maxPitchOf ((flattenChordsToNotes (adjustHarmonyOctaveRelativeToMelody exChords)).filter
          (fun n => n.voice.isSome && n.voice != some 0)) ≤ 12)) :=
  ⟨by decide, by decide, by decide,
    adjustHarmonyOctave_spec exChords (by decide) (by decide) (by decide)⟩

/-- C9 witness on a three-element voice pool. -/
theorem generatePermutations_spec_witness :
    ([1, 2, 3] : List Nat).Nodup ∧ 2 ≤ ([1, 2, 3] : List Nat).length ∧
    ((∀ b, b ∈ generatePermutations [1, 2, 3] 2 ↔
        (b.length = 2 ∧ b.Nodup ∧ ∀ x ∈ b, x ∈ ([1, 2, 3] : List Nat))) ∧
      (generatePermutations [1, 2, 3] 2).Nodup ∧
      (∀ s current, backtrack [1, 2, 3] 2 s current = backtrack [1, 2, 3] 2 0 current)) :=
  ⟨by decide, by decide, generatePermutations_spec [1, 2, 3] 2 (by decide) (by decide)⟩

/-- C10 witness on a one-note melody. -/
theorem optimizeVoiceLeading_frame_witness :
    ([⟨60, 0, 8, none⟩] : List Note) ++ ([] : List Note) ≠ [] ∧
    (∃ out, optimizeVoiceLeading [⟨60, 0, 8, none⟩] [] = some out ∧
      out.length = ([⟨60, 0, 8, none⟩] : List Note).length + ([] : List Note).length ∧
      List.Perm (out.map noteShape)
        ((([⟨60, 0, 8, none⟩] : List Note) ++ ([] : List Note)).map noteShape)) :=
  ⟨by decide, optimizeVoiceLeading_frame [⟨60, 0, 8, none⟩] [] (by decide)⟩

end PianoRoll
namespace PianoRoll

theorem octShiftDownFuel_stable :
    ∀ (f g : Nat) (p lowest : Int), (p - lowest).toNat ≤ f → (p - lowest).toNat ≤ g →
      octShiftDownFuel f p lowest = octShiftDownFuel g p lowest := by
  intro f
  induction f with
  | zero =>
    intro g p lowest hf hg
    have hple : ¬ p > lowest := by omega
    cases g with
    | zero => rfl
    | succ g2 => simp [octShiftDownFuel, hple]
  | succ f2 ih =>
    intro g p lowest hf hg
    cases g with
    | zero =>
      have hple : ¬ p > lowest := by omega
      simp [octShiftDownFuel, hple]
    | succ g2 =>
      by_cases hp : p > lowest
      · simp only [octShiftDownFuel, hp, if_true]
        exact ih g2 (p - 12) lowest (by omega) (by omega)
      · simp [octShiftDownFuel, hp]

/-- The fuelled `octShiftDown` satisfies the defining equation of the
source's `while (bassNote.pitch > lowestPitch) bassNote.pitch -= 12` loop,
certifying that the initial fuel `(p - lowest).toNat` is always enough. -/
theorem octShiftDown_eq (p lowest : Int) :
    octShiftDown p lowest = if p > lowest then octShiftDown (p - 12) lowest else p := by
  by_cases hp : p > lowest
  · rw [if_pos hp]
    rw [octShiftDown, octShiftDown]
    have h1 : (p - lowest).toNat = ((p - lowest).toNat - 1) + 1 := by omega
    rw [h1]
    simp only [octShiftDownFuel, hp, if_true]
    exact octShiftDownFuel_stable _ _ (p - 12) lowest (by omega) (le_refl _)
  · rw [if_neg hp]
    rw [octShiftDown]
    cases hn : (p - lowest).toNat with
    | zero => rfl
    | succ m => simp [octShiftDownFuel, hp]

end PianoRoll
